import Mathlib

/-!
Verification development for the SolarSeer AFNO network (src/network/afnonet.py).

The development shallowly embeds the parts of the source that the checked
properties are about:

* the autoregressive driver of AFNONet (forward, get_next_input), modelled over
  nested lists whose outer levels are the batch, channel and time axes;
* the in-place fusion helper add and the MultiEncoderAFNONet wrapper
  (forward_step, get_next_input, forward), modelled over flat shape/data
  tensors with the broadcasting semantics of the in-place += operator;
* the AFNO2D spectral filter (forward), modelled over exact arithmetic in an
  arbitrary linearly ordered ring in place of floating point, with the 2D real
  FFT pair treated as an external collaborator of the numeric substrate (the
  specification lists such primitives as ready-made capabilities).

Neural sub-components that the checked properties treat as black boxes (patch
embedding, transformer blocks, the linear head, einops rearrangement, center
crop) appear as abstract function parameters, mirroring the specification's
component boundaries.
-/

namespace SolarSeer

/-! ### Tensors grouped by batch, channel and time axes

A 5-D tensor (batch, channel, time, height, width) is modelled as nested lists
down to the time axis; the element type stands for one (height, width) slice.
The driver of AFNONet only ever touches the first three axes.  A 4-D tensor of
a model without time dimension also inhabits this type (the third list level is
then simply never sliced, matching the source, where the time-slicing branches
are unreachable for such models). -/
abbrev TensorBCT (α : Type) := List (List (List α))

/-- Python negative-start slicing l[-k:]: the trailing `min k (length l)`
elements for `k ≥ 1`; for `k = 0` Python reads l[0:], the whole list. -/
def pyLastSlice {α : Type} (k : Nat) (l : List α) : List α :=
  if k = 0 then l else l.drop (l.length - k)

/-- x[:, :, -k:] — trailing time slices, batch and channel axes untouched. -/
def sliceTimeLast {α : Type} (k : Nat) (t : TensorBCT α) : TensorBCT α :=
  t.map (List.map (pyLastSlice k))

/-- x[:, :, k:] — drop the first k time slices. -/
def sliceTimeFrom {α : Type} (k : Nat) (t : TensorBCT α) : TensorBCT α :=
  t.map (List.map (List.drop k))

/-- torch.cat([a, b], dim=2): concatenation along the time axis.  torch
requires matching batch/channel extents; theorems carry that as a hypothesis. -/
def catTime {α : Type} (a b : TensorBCT α) : TensorBCT α :=
  List.zipWith (List.zipWith (· ++ ·)) a b

/-- torch.cat(output_list, dim=2) over a whole list; torch raises on an empty
list, hence the Option. -/
def catTimeAll {α : Type} : List (TensorBCT α) → Option (TensorBCT α)
  | [] => none
  | t :: ts => some (ts.foldl catTime t)

/-- x[:, target_variable_index]: select the given channel indices.  torch
raises on an out-of-range index, hence the Option. -/
def selectChannels {α : Type} (idx : List Nat) (t : TensorBCT α) :
    Option (TensorBCT α) :=
  t.mapM (fun chans => idx.mapM (fun j => chans[j]?))

/-- Every (batch, channel) position holds exactly `n` time slices. -/
def timeLen {α : Type} (t : TensorBCT α) (n : Nat) : Prop :=
  ∀ p ∈ t, ∀ q ∈ p, q.length = n

/-- Batch and channel extents of two tensors agree (torch.cat precondition). -/
def sameBC {α : Type} (a b : TensorBCT α) : Prop :=
  a.length = b.length ∧ ∀ p ∈ a.zip b, p.1.length = p.2.length

instance {α : Type} (t : TensorBCT α) (n : Nat) : Decidable (timeLen t n) := by
  unfold timeLen
  exact inferInstance

instance {α : Type} (a b : TensorBCT α) : Decidable (sameBC a b) := by
  unfold sameBC
  exact inferInstance

/-! ### The AFNONet autoregressive driver (src/network/afnonet.py:257-408)

The fields record the configuration state the driver reads after `__init__`
has resolved it: `output_time_dim` already holds the given value or, when that
was None, `input_time_dim`.  `forward_step` is the single-step forecaster
(patch embedding + backbone + head, afnonet.py:379-382), an external
collaborator of the driver; `crop_layer` is the torchvision CenterCrop
collaborator built when dilated-convolution mode is configured. -/
structure AFNONet (α : Type) where
  input_time_dim : Option Nat
  output_time_dim : Option Nat
  autoregressive_steps : Nat
  output_only_last : Bool
  use_dilated_conv_blocks : Bool
  crop_layer : TensorBCT α → TensorBCT α
  target_variable_index : Option (List Nat)
  forward_step : TensorBCT α → TensorBCT α

/-- self.has_time_dim = input_time_dim is not None (afnonet.py:289). -/
def AFNONet.has_time_dim {α : Type} (m : AFNONet α) : Bool :=
  m.input_time_dim.isSome

/-- AFNONet.get_next_input (afnonet.py:384-390).  `outputs[-1]` raises on an
empty Python list; the driver only calls this with a nonempty output list, and
theorems carry that as a hypothesis (defaulting to [] here).  The `.getD 0`
extracts the integer from the Option; both Options are `some` whenever the
branch is reached in the source. -/
def AFNONet.get_next_input {α : Type} (m : AFNONet α) (inputs : TensorBCT α)
    (outputs : List (TensorBCT α)) : TensorBCT α :=
  if ¬ m.has_time_dim then
    outputs.getLastD []
  else if m.input_time_dim.getD 0 ≤ m.output_time_dim.getD 0 then
    sliceTimeLast (m.input_time_dim.getD 0) (outputs.getLastD [])
  else
    catTime (sliceTimeFrom (m.output_time_dim.getD 0) inputs)
      (outputs.getLastD [])

/-- The loop of AFNONet.forward (afnonet.py:393-398): `fuel` counts the
remaining iterations, `step` is the Python loop variable, `outs` the
accumulated output_list.  On step > 0 the loop rebinds `inputs` to the derived
next input before invoking the single-step forecaster. -/
def forwardLoop {α : Type} (m : AFNONet α) :
    Nat → Nat → TensorBCT α → List (TensorBCT α) → List (TensorBCT α)
  | 0, _, _, outs => outs
  | fuel + 1, step, inputs, outs =>
    let inputs' := if step > 0 then m.get_next_input inputs outs else inputs
    let x := m.forward_step inputs'
    forwardLoop m fuel (step + 1) inputs' (outs ++ [x])

/-- AFNONet.forward (afnonet.py:392-408).  The Option records the failure
points of the source: torch.cat on an empty list and output_list[-1] raise
when autoregressive_steps = 0, and channel selection raises on a bad index. -/
def AFNONet.forward {α : Type} (m : AFNONet α) (inputs : TensorBCT α) :
    Option (TensorBCT α) :=
  let output_list := forwardLoop m m.autoregressive_steps 0 inputs []
  (if m.has_time_dim && !m.output_only_last then catTimeAll output_list
   else output_list.getLast?).bind
    (fun x =>
      let x := if m.use_dilated_conv_blocks then m.crop_layer x else x
      match m.target_variable_index with
      | some idx => selectChannels idx x
      | none => some x)

/-! ### Helper lemmas about the list operations used by the driver -/

theorem exists_of_mem_zipWith {α β γ : Type} {f : α → β → γ} :
    ∀ {l1 : List α} {l2 : List β} {x : γ}, x ∈ List.zipWith f l1 l2 →
      ∃ a b, a ∈ l1 ∧ b ∈ l2 ∧ x = f a b := by
  intro l1
  induction l1 with
  | nil => intro l2 x hx; simp at hx
  | cons a t ih =>
    intro l2 x hx
    cases l2 with
    | nil => simp at hx
    | cons b u =>
      rw [List.zipWith_cons_cons, List.mem_cons] at hx
      rcases hx with hx | hx
      · exact ⟨a, b, List.mem_cons_self a t, List.mem_cons_self b u, hx⟩
      · obtain ⟨a0, b0, ha0, hb0, rfl⟩ := ih hx
        exact ⟨a0, b0, List.mem_cons_of_mem a ha0, List.mem_cons_of_mem b hb0, rfl⟩

theorem timeLen_catTime {α : Type} {a b : TensorBCT α} {n k : Nat}
    (ha : timeLen a n) (hb : timeLen b k) : timeLen (catTime a b) (n + k) := by
  intro p hp
  obtain ⟨pa, pb, hpa, hpb, rfl⟩ := exists_of_mem_zipWith hp
  intro q hq
  obtain ⟨qa, qb, hqa, hqb, rfl⟩ := exists_of_mem_zipWith hq
  rw [List.length_append, ha pa hpa qa hqa, hb pb hpb qb hqb]

theorem timeLen_sliceTimeFrom {α : Type} (k n : Nat) (t : TensorBCT α)
    (h : timeLen t n) : timeLen (sliceTimeFrom k t) (n - k) := by
  intro p hp
  rw [sliceTimeFrom, List.mem_map] at hp
  obtain ⟨p0, hp0, rfl⟩ := hp
  intro q hq
  rw [List.mem_map] at hq
  obtain ⟨q0, hq0, rfl⟩ := hq
  rw [List.length_drop, h p0 hp0 q0 hq0]

theorem timeLen_sliceTimeLast {α : Type} (k n : Nat) (t : TensorBCT α)
    (hk : 1 ≤ k) (hkn : k ≤ n) (h : timeLen t n) :
    timeLen (sliceTimeLast k t) k := by
  intro p hp
  rw [sliceTimeLast, List.mem_map] at hp
  obtain ⟨p0, hp0, rfl⟩ := hp
  intro q hq
  rw [List.mem_map] at hq
  obtain ⟨q0, hq0, rfl⟩ := hq
  rw [pyLastSlice, if_neg (by omega), List.length_drop, h p0 hp0 q0 hq0]
  omega

theorem getLastD_of_getLast? {α : Type} {l : List (TensorBCT α)}
    {y : TensorBCT α} (h : l.getLast? = some y) : l.getLastD [] = y := by
  rw [List.getLastD_eq_getLast?, h]
  rfl

/-- C2: for every call of get_next_input with a nonempty output list (as
happens at every autoregressive step of index > 0), the derived next input
follows the three specified cases — with no time dimension it is the whole
previous output; with a time dimension and input_time_dim ≤ output_time_dim
it is the trailing input_time_dim time slices of the previous output; with
input_time_dim > output_time_dim it is the original input's time slices from
output_time_dim onward concatenated with the previous output along the time
axis — and in the two time-dimension cases the result has exactly
input_time_dim time slices. -/
theorem get_next_input_cases {α : Type} (m : AFNONet α) (inputs : TensorBCT α)
    (outputs : List (TensorBCT α)) (prev : TensorBCT α)
    (hlast : outputs.getLast? = some prev) :
    (m.input_time_dim = none → m.get_next_input inputs outputs = prev) ∧
    (∀ itd otd, m.input_time_dim = some itd → m.output_time_dim = some otd →
      1 ≤ itd → itd ≤ otd → timeLen prev otd →
      m.get_next_input inputs outputs
          = prev.map (List.map (fun q => q.drop (q.length - itd))) ∧
        timeLen (m.get_next_input inputs outputs) itd) ∧
    (∀ itd otd, m.input_time_dim = some itd → m.output_time_dim = some otd →
      otd < itd → timeLen inputs itd → timeLen prev otd → sameBC inputs prev →
      m.get_next_input inputs outputs
          = catTime (sliceTimeFrom otd inputs) prev ∧
        timeLen (m.get_next_input inputs outputs) itd) := by
  have hl : outputs.getLastD [] = prev := getLastD_of_getLast? hlast
  refine ⟨?_, ?_, ?_⟩
  · intro h
    simp [AFNONet.get_next_input, AFNONet.has_time_dim, h, hlast]
  · intro itd otd hitd hotd h1 hle htl
    have heq : m.get_next_input inputs outputs = sliceTimeLast itd prev := by
      simp [AFNONet.get_next_input, AFNONet.has_time_dim, hitd, hotd, hle,
        hlast]
    have hfun : pyLastSlice (α := α) itd
        = fun q => q.drop (q.length - itd) := by
      funext q
      rw [pyLastSlice, if_neg (by omega)]
    refine ⟨?_, ?_⟩
    · rw [heq, sliceTimeLast, hfun]
    · rw [heq]
      exact timeLen_sliceTimeLast itd otd prev h1 hle htl
  · intro itd otd hitd hotd hlt hin htl _
    have heq : m.get_next_input inputs outputs
        = catTime (sliceTimeFrom otd inputs) prev := by
      simp [AFNONet.get_next_input, AFNONet.has_time_dim, hitd, hotd, hlast,
        Nat.not_le.mpr hlt]
    refine ⟨heq, ?_⟩
    rw [heq]
    have := timeLen_catTime (timeLen_sliceTimeFrom otd itd inputs hin) htl
    rwa [Nat.sub_add_cancel (Nat.le_of_lt hlt)] at this

/-- Witness for C2: a concrete sliding-window case (input_time_dim = 2,
output_time_dim = 1). -/
theorem get_next_input_cases_witness :
    AFNONet.get_next_input (α := ℤ)
        { input_time_dim := some 2, output_time_dim := some 1,
          autoregressive_steps := 1, output_only_last := false,
          use_dilated_conv_blocks := false, crop_layer := id,
          target_variable_index := none, forward_step := id }
        [[[10, 11]]] [[[[20]]]]
      = catTime (sliceTimeFrom 1 [[[10, 11]]]) [[[20]]] ∧
    timeLen
      (AFNONet.get_next_input (α := ℤ)
        { input_time_dim := some 2, output_time_dim := some 1,
          autoregressive_steps := 1, output_only_last := false,
          use_dilated_conv_blocks := false, crop_layer := id,
          target_variable_index := none, forward_step := id }
        [[[10, 11]]] [[[[20]]]]) 2 :=
  (get_next_input_cases _ [[[10, 11]]] [[[[20]]]] [[[20]]] (by decide)).2.2
    2 1 rfl rfl (by decide) (by decide) (by decide) (by decide)

/-! ### The assembly of AFNONet.forward (claims C6 and C7) -/

theorem forwardLoop_length {α : Type} (m : AFNONet α) :
    ∀ (fuel step : Nat) (inputs : TensorBCT α) (outs : List (TensorBCT α)),
      (forwardLoop m fuel step inputs outs).length = outs.length + fuel := by
  intro fuel
  induction fuel with
  | zero => intro step inputs outs; rfl
  | succ n ih =>
    intro step inputs outs
    rw [forwardLoop]
    rw [ih]
    simp
    omega

/-- C6: after the driver's autoregressive loop, the returned value is built
from the list of per-step outputs (one per step): it is their concatenation
along the time axis exactly when a time dimension is configured and
output_only_last is false, and the final step's output otherwise, then the
optional center-crop (dilated-convolution mode) and target-channel selection
are applied, in that order. -/
theorem forward_output_assembly {α : Type} (m : AFNONet α)
    (inputs : TensorBCT α) (h1 : 1 ≤ m.autoregressive_steps) :
    ∃ outs : List (TensorBCT α),
      outs = forwardLoop m m.autoregressive_steps 0 inputs [] ∧
      outs.length = m.autoregressive_steps ∧ outs ≠ [] ∧
      m.forward inputs =
        (if m.has_time_dim && !m.output_only_last then catTimeAll outs
         else outs.getLast?).bind
          (fun x =>
            let y := if m.use_dilated_conv_blocks then m.crop_layer x else x
            match m.target_variable_index with
            | some idx => selectChannels idx y
            | none => some y) := by
  refine ⟨forwardLoop m m.autoregressive_steps 0 inputs [], rfl, ?_, ?_, rfl⟩
  · rw [forwardLoop_length]
    simp
  · have hlen := forwardLoop_length m m.autoregressive_steps 0 inputs []
    intro hnil
    rw [hnil] at hlen
    simp at hlen
    omega

/-- Witness for C6: a two-step time-dimension model with identity single-step
map; the assembled output is the time concatenation of both step outputs. -/
theorem forward_output_assembly_witness :
    ∃ outs : List (TensorBCT ℤ),
      outs = forwardLoop
          { input_time_dim := some 1, output_time_dim := some 1,
            autoregressive_steps := 2, output_only_last := false,
            use_dilated_conv_blocks := false, crop_layer := id,
            target_variable_index := none, forward_step := id } 2 0
          ([[[7]]] : TensorBCT ℤ) [] ∧
      outs.length = 2 ∧ outs ≠ [] ∧
      AFNONet.forward
          { input_time_dim := some 1, output_time_dim := some 1,
            autoregressive_steps := 2, output_only_last := false,
            use_dilated_conv_blocks := false, crop_layer := id,
            target_variable_index := none, forward_step := id }
          ([[[7]]] : TensorBCT ℤ) =
        (if AFNONet.has_time_dim (α := ℤ)
              { input_time_dim := some 1, output_time_dim := some 1,
                autoregressive_steps := 2, output_only_last := false,
                use_dilated_conv_blocks := false, crop_layer := id,
                target_variable_index := none, forward_step := id }
            && !false then catTimeAll outs
         else outs.getLast?).bind
          (fun x =>
            let y := if false = true then id x else x
            match (none : Option (List Nat)) with
            | some idx => selectChannels idx y
            | none => some y) :=
  forward_output_assembly
    { input_time_dim := some 1, output_time_dim := some 1,
      autoregressive_steps := 2, output_only_last := false,
      use_dilated_conv_blocks := false, crop_layer := id,
      target_variable_index := none, forward_step := id }
    ([[[7]]] : TensorBCT ℤ) (by decide)

/-- The outputs of repeatedly applying the step map, seeded from y. -/
def iterList {α : Type} (f : α → α) (y : α) : Nat → List α
  | 0 => []
  | n + 1 => f y :: iterList f (f y) n

theorem iterList_ne_nil {α : Type} (f : α → α) (y : α) (n : Nat)
    (h : 1 ≤ n) : iterList f y n ≠ [] := by
  cases n with
  | zero => omega
  | succ k => simp [iterList]

theorem iterList_getLast? {α : Type} (f : α → α) :
    ∀ (n : Nat) (y : α), 1 ≤ n →
      (iterList f y n).getLast? = some (f^[n] y) := by
  intro n
  induction n with
  | zero => intro y h; omega
  | succ k ih =>
    intro y _
    cases k with
    | zero => simp [iterList]
    | succ j =>
      rw [iterList, iterList, List.getLast?_cons_cons, ← iterList]
      rw [ih (f y) (by omega), ← Function.iterate_succ_apply]

/-- With no time dimension, every iteration of the loop feeds the previous
output straight back in, so the loop appends the successive iterates of the
single-step map. -/
theorem forwardLoop_no_time {α : Type} (m : AFNONet α)
    (ht : m.input_time_dim = none) :
    ∀ (fuel step : Nat) (inputs : TensorBCT α) (outs : List (TensorBCT α))
      (y : TensorBCT α), 1 ≤ step → outs.getLast? = some y →
      forwardLoop m fuel step inputs outs
        = outs ++ iterList m.forward_step y fuel := by
  intro fuel
  induction fuel with
  | zero => intro step inputs outs y _ _; simp [forwardLoop, iterList]
  | succ n ih =>
    intro step inputs outs y hstep hlast
    have hni : m.get_next_input inputs outs = y := by
      simp [AFNONet.get_next_input, AFNONet.has_time_dim, ht, hlast]
    rw [forwardLoop]
    simp only [if_pos (by omega : step > 0), hni]
    rw [ih (step + 1) y (outs ++ [m.forward_step y]) (m.forward_step y)
      (by omega) (by rw [List.getLast?_concat])]
    rw [List.append_assoc, iterList]
    rfl

/-- With no time dimension and no post-processing, AFNONet.forward with
autoregressive_steps = N returns the N-th iterate of the single-step map. -/
theorem forward_no_time_eq {α : Type} (m : AFNONet α) (x : TensorBCT α)
    (ht : m.input_time_dim = none) (hc : m.use_dilated_conv_blocks = false)
    (hs : m.target_variable_index = none)
    (h1 : 1 ≤ m.autoregressive_steps) :
    m.forward x = some (m.forward_step^[m.autoregressive_steps] x) := by
  obtain ⟨n, hn⟩ : ∃ n, m.autoregressive_steps = n + 1 :=
    ⟨m.autoregressive_steps - 1, by omega⟩
  have hloop : forwardLoop m m.autoregressive_steps 0 x []
      = [m.forward_step x] ++ iterList m.forward_step (m.forward_step x) n := by
    rw [hn, forwardLoop]
    simp only [if_neg (by omega : ¬ (0 : Nat) > 0)]
    exact forwardLoop_no_time m ht n 1 x [m.forward_step x]
      (m.forward_step x) (by omega) rfl
  have hlast : (forwardLoop m m.autoregressive_steps 0 x []).getLast?
      = some (m.forward_step^[m.autoregressive_steps] x) := by
    rw [hloop]
    cases n with
    | zero => simp [iterList, hn]
    | succ k =>
      rw [List.getLast?_append]
      rw [iterList_getLast? m.forward_step (k + 1) (m.forward_step x)
        (by omega)]
      simp [hn, Function.iterate_succ_apply]
  have hht : m.has_time_dim = false := by
    simp [AFNONet.has_time_dim, ht]
  simp [AFNONet.forward, hht, hlast, hc, hs]

/-- C7 (amended): for a model with no time dimension and no post-processing,
forward with autoregressive_steps = N returns the N-th iterate of the
single-step map applied to the input; it agrees with the 1-step forward under
identical weights exactly when that N-th iterate equals the first, which
holds for N = 1 but not in general. -/
theorem forward_no_time_iterates {α : Type} (m m1 : AFNONet α)
    (x : TensorBCT α) (ht : m.input_time_dim = none)
    (hc : m.use_dilated_conv_blocks = false)
    (hs : m.target_variable_index = none)
    (h1 : 1 ≤ m.autoregressive_steps)
    (hm1 : m1 = { m with autoregressive_steps := 1 }) :
    m.forward x = some (m.forward_step^[m.autoregressive_steps] x) ∧
    (m.forward_step^[m.autoregressive_steps] x = m.forward_step x →
      m.forward x = m1.forward x) := by
  refine ⟨forward_no_time_eq m x ht hc hs h1, ?_⟩
  intro hfix
  rw [forward_no_time_eq m x ht hc hs h1, hfix]
  rw [forward_no_time_eq m1 x (by rw [hm1]; exact ht) (by rw [hm1]; exact hc)
    (by rw [hm1]; exact hs) (by rw [hm1])]
  rw [hm1]
  simp

/-- Witness for C7's amended statement at a concrete two-step model. -/
theorem forward_no_time_iterates_witness :
    AFNONet.forward (α := ℤ)
        { input_time_dim := none, output_time_dim := none,
          autoregressive_steps := 2, output_only_last := true,
          use_dilated_conv_blocks := false, crop_layer := id,
          target_variable_index := none,
          forward_step := fun t => [[[(((t.headD []).headD []).headD 0) + 1]]] }
        [[[0]]]
      = some ((fun t : TensorBCT ℤ =>
          [[[(((t.headD []).headD []).headD 0) + 1]]])^[2] [[[0]]]) :=
  (forward_no_time_iterates (α := ℤ)
    { input_time_dim := none, output_time_dim := none,
      autoregressive_steps := 2, output_only_last := true,
      use_dilated_conv_blocks := false, crop_layer := id,
      target_variable_index := none,
      forward_step := fun t => [[[(((t.headD []).headD []).headD 0) + 1]]] }
    { input_time_dim := none, output_time_dim := none,
      autoregressive_steps := 1, output_only_last := true,
      use_dilated_conv_blocks := false, crop_layer := id,
      target_variable_index := none,
      forward_step := fun t => [[[(((t.headD []).headD []).headD 0) + 1]]] }
    ([[[0]]] : TensorBCT ℤ) rfl rfl rfl (by decide) rfl).1

/-- Counterexample for C7 as stated: with no time dimension, identical
deterministic weights and output_only_last = true, the 1-step forward and the
2-step forward differ, because the 2-step driver re-applies the single-step
map to its own output. -/
theorem forward_steps_counterexample :
    AFNONet.forward (α := ℤ)
        { input_time_dim := none, output_time_dim := none,
          autoregressive_steps := 1, output_only_last := true,
          use_dilated_conv_blocks := false, crop_layer := id,
          target_variable_index := none,
          forward_step := fun t => [[[(((t.headD []).headD []).headD 0) + 1]]] }
        [[[0]]] = some [[[1]]] ∧
    AFNONet.forward (α := ℤ)
        { input_time_dim := none, output_time_dim := none,
          autoregressive_steps := 2, output_only_last := true,
          use_dilated_conv_blocks := false, crop_layer := id,
          target_variable_index := none,
          forward_step := fun t => [[[(((t.headD []).headD []).headD 0) + 1]]] }
        [[[0]]] = some [[[2]]] ∧
    AFNONet.forward (α := ℤ)
        { input_time_dim := none, output_time_dim := none,
          autoregressive_steps := 1, output_only_last := true,
          use_dilated_conv_blocks := false, crop_layer := id,
          target_variable_index := none,
          forward_step := fun t => [[[(((t.headD []).headD []).headD 0) + 1]]] }
        [[[0]]]
      ≠ AFNONet.forward (α := ℤ)
        { input_time_dim := none, output_time_dim := none,
          autoregressive_steps := 2, output_only_last := true,
          use_dilated_conv_blocks := false, crop_layer := id,
          target_variable_index := none,
          forward_step := fun t => [[[(((t.headD []).headD []).headD 0) + 1]]] }
        [[[0]]] := by
  refine ⟨by decide, by decide, by decide⟩

/-! ### Flat tensors with shapes, and the in-place fusion helper

The fusion helper add (afnonet.py:55-58) and the MultiEncoderAFNONet wrapper
(afnonet.py:454-591) are modelled over tensors carrying an explicit shape and
a flat row-major data list, because their behaviour depends on shape
agreement: the in-place `x_list[0] += _x` follows torch's in-place
broadcasting rule (the right operand is broadcast into the left operand's
shape; it never grows the left operand).  The scalar type is any type with
addition and a zero, instantiated with exact integers in concrete runs. -/
structure PTensor (K : Type) where
  shape : List Nat
  data : List K
deriving DecidableEq

/-- The data list fills the shape exactly (row-major). -/
def PTensor.wf {K : Type} (t : PTensor K) : Prop :=
  t.data.length = t.shape.prod

instance {K : Type} [DecidableEq K] (t : PTensor K) : Decidable t.wf := by
  unfold PTensor.wf
  exact inferInstance

/-- Row-major multi-index of flat position k in the given shape. -/
def unravel : List Nat → Nat → List Nat
  | [], _ => []
  | _ :: ds, k => (k / ds.prod) :: unravel ds (k % ds.prod)

/-- Row-major flat position of a multi-index in the given shape. -/
def ravel : List Nat → List Nat → Nat
  | _ :: ds, i :: is => i * ds.prod + ravel ds is
  | _, _ => 0

/-- torch broadcasting of a read index: right-align the index with the
(smaller-rank) shape and clamp coordinates of size-1 dimensions to 0. -/
def broadcastIndex (bShape idx : List Nat) : List Nat :=
  (bShape.zip (idx.drop (idx.length - bShape.length))).map
    (fun p => if p.1 = 1 then 0 else p.2)

/-- torch's condition for `a += b`: b has no more dimensions than a, and each
of b's dimensions (right-aligned) equals a's or is 1.  An in-place add never
reshapes a, so a size-1 dimension of a cannot absorb a larger one of b. -/
def broadcastableInto (bShape aShape : List Nat) : Bool :=
  decide (bShape.length ≤ aShape.length) &&
  ((aShape.drop (aShape.length - bShape.length)).zip bShape).all
    (fun p => p.2 == p.1 || p.2 == 1)

/-- The in-place `a += b` on tensors: broadcast b into a's shape and add
elementwise; a RuntimeError (none) when b does not broadcast into a. -/
def addInto {K : Type} [AddCommMonoid K] (a b : PTensor K) :
    Option (PTensor K) :=
  if broadcastableInto b.shape a.shape then
    some ⟨a.shape,
      (List.range a.shape.prod).map (fun k =>
        a.data.getD k 0 +
          b.data.getD
            (ravel b.shape (broadcastIndex b.shape (unravel a.shape k))) 0)⟩
  else none

/-- The loop of add: fold the remaining tensors into the (mutated) head. -/
def addLoop {K : Type} [AddCommMonoid K] (x : PTensor K) :
    List (PTensor K) → Option (PTensor K)
  | [] => some x
  | y :: ys =>
    match addInto x y with
    | some x2 => addLoop x2 ys
    | none => none

/-- add (afnonet.py:55-58).  `x_list[0] += _x` mutates the list's first
element in place, so the embedding returns both the function's return value
and the final state of its argument list; Python raises IndexError on an
empty list. -/
def add {K : Type} [AddCommMonoid K] (x_list : List (PTensor K)) :
    Option (PTensor K × List (PTensor K)) :=
  match x_list with
  | [] => none
  | x :: xs => (addLoop x xs).map (fun s => (s, s :: xs))

/-- process_input (afnonet.py:67-68): apply func to inputs; the keyword
parameter dictionary of the source is curried into func here. -/
def process_input {A B : Type} (inputs : A) (func : A → B) : B :=
  func inputs

/-- torch.concat(ts, dim=-1): all shapes must agree except in the last
dimension; data rows are interleaved along that dimension. -/
def concatLastDim {K : Type} (ts : List (PTensor K)) : Option (PTensor K) :=
  match ts with
  | [] => none
  | t :: rest =>
    if t.shape ≠ [] ∧ ∀ u ∈ rest,
        u.shape.dropLast = t.shape.dropLast ∧ u.shape ≠ [] then
      some ⟨t.shape.dropLast ++ [(ts.map (fun u => u.shape.getLastD 0)).sum],
        (List.range t.shape.dropLast.prod).flatMap (fun j =>
          ts.flatMap (fun u =>
            (u.data.drop (j * u.shape.getLastD 0)).take (u.shape.getLastD 0)))⟩
    else none

/-- x[:, :, -k:] on a flat tensor of rank ≥ 3 (torch raises otherwise). -/
def PTensor.sliceTimeLast {K : Type} (k : Nat) (t : PTensor K) :
    Option (PTensor K) :=
  match t.shape with
  | s0 :: s1 :: s2 :: rest =>
    let keep := if k = 0 then s2 else min k s2
    let start := s2 - keep
    let inner := rest.prod
    some ⟨s0 :: s1 :: keep :: rest,
      (List.range (s0 * s1)).flatMap (fun b =>
        ((t.data.drop (b * (s2 * inner))).take (s2 * inner)).drop
          (start * inner))⟩
  | _ => none

/-- x[:, :, k:] on a flat tensor of rank ≥ 3. -/
def PTensor.sliceTimeFrom {K : Type} (k : Nat) (t : PTensor K) :
    Option (PTensor K) :=
  match t.shape with
  | s0 :: s1 :: s2 :: rest =>
    let start := min k s2
    let inner := rest.prod
    some ⟨s0 :: s1 :: (s2 - start) :: rest,
      (List.range (s0 * s1)).flatMap (fun b =>
        ((t.data.drop (b * (s2 * inner))).take (s2 * inner)).drop
          (start * inner))⟩
  | _ => none

/-- torch.cat([a, b], dim=2) on flat tensors of rank ≥ 3. -/
def PTensor.catDim2 {K : Type} (a b : PTensor K) : Option (PTensor K) :=
  match a.shape, b.shape with
  | a0 :: a1 :: a2 :: ar, b0 :: b1 :: b2 :: br =>
    if a0 = b0 ∧ a1 = b1 ∧ ar = br then
      some ⟨a0 :: a1 :: (a2 + b2) :: ar,
        (List.range (a0 * a1)).flatMap (fun j =>
          ((a.data.drop (j * (a2 * ar.prod))).take (a2 * ar.prod)) ++
          ((b.data.drop (j * (b2 * br.prod))).take (b2 * br.prod)))⟩
    else none
  | _, _ => none

/-- torch.cat(output_list, dim=2) over a whole list of flat tensors. -/
def catDim2All {K : Type} : List (PTensor K) → Option (PTensor K)
  | [] => none
  | t :: ts => ts.foldlM PTensor.catDim2 t

/-- x[:, target_variable_index] on a flat tensor of rank ≥ 2. -/
def PTensor.selectDim1 {K : Type} (idx : List Nat) (t : PTensor K) :
    Option (PTensor K) :=
  match t.shape with
  | s0 :: s1 :: rest =>
    if idx.all (· < s1) then
      some ⟨s0 :: idx.length :: rest,
        (List.range s0).flatMap (fun i =>
          idx.flatMap (fun j =>
            (t.data.drop (i * (s1 * rest.prod) + j * rest.prod)).take
              rest.prod))⟩
    else none
  | _ => none

/-- The two fusion policies of the wrapper (afnonet.py:544-547). -/
inductive FuseAction where
  | add
  | concat
deriving DecidableEq

/-- MultiEncoderAFNONet (afnonet.py:454-591).  The encoder sub-models
(EncoderAFNONet.forward = forward_features, an embedding+backbone pipeline
without a head), the shared linear head, the einops output rearrangement, the
optional CenterCrop and the optional final activation are external
collaborators, so they appear as abstract functions; the fusion of encoder
outputs is concrete.  `output_time_dim` already holds the value resolved at
construction (the given value, or input_time_dim when that was None). -/
structure MultiEncoderAFNONet (K : Type) where
  encoders : List (PTensor K → PTensor K)
  action : FuseAction
  head : PTensor K → PTensor K
  rearrangeOut : PTensor K → PTensor K
  autoregressive_steps : Nat
  input_time_dim : Option Nat
  output_time_dim : Option Nat
  output_only_last : Bool
  crop_layer : Option (PTensor K → PTensor K)
  target_variable_index : Option (List Nat)
  act_final : Option (PTensor K → PTensor K)

/-- self.has_time_dim (afnonet.py:500). -/
def MultiEncoderAFNONet.has_time_dim {K : Type}
    (M : MultiEncoderAFNONet K) : Bool :=
  M.input_time_dim.isSome

/-- The loop of forward_step (afnonet.py:540-543): the i-th encoder is run on
input_list[i]; a Python IndexError (none) when the list is too short. -/
def runEncoders {K : Type} (encoders : List (PTensor K → PTensor K))
    (input_list : List (PTensor K)) (i : Nat) : Option (List (PTensor K)) :=
  match encoders with
  | [] => some []
  | e :: es =>
    match input_list[i]? with
    | none => none
    | some inp =>
      (runEncoders es input_list (i + 1)).map (fun rest => e inp :: rest)

/-- MultiEncoderAFNONet.forward_step (afnonet.py:539-559). -/
def MultiEncoderAFNONet.forward_step {K : Type} [AddCommMonoid K]
    (M : MultiEncoderAFNONet K) (input_list : List (PTensor K)) :
    Option (PTensor K) :=
  (runEncoders M.encoders input_list 0).bind (fun input_encoder_list =>
    (match M.action with
     | FuseAction.add =>
        (process_input input_encoder_list add).map Prod.fst
     | FuseAction.concat =>
        process_input input_encoder_list concatLastDim).map
      (fun fused => M.rearrangeOut (M.head fused)))

/-- MultiEncoderAFNONet.get_next_input (afnonet.py:561-567). -/
def MultiEncoderAFNONet.get_next_input {K : Type}
    (M : MultiEncoderAFNONet K) (inputs : PTensor K)
    (outputs : List (PTensor K)) : Option (PTensor K) :=
  if ¬ M.has_time_dim then
    outputs.getLast?
  else if M.input_time_dim.getD 0 ≤ M.output_time_dim.getD 0 then
    (outputs.getLast?).bind (PTensor.sliceTimeLast (M.input_time_dim.getD 0))
  else
    (outputs.getLast?).bind (fun prev =>
      (PTensor.sliceTimeFrom (M.output_time_dim.getD 0) inputs).bind
        (fun sliced => PTensor.catDim2 sliced prev))

/-- The loop of MultiEncoderAFNONet.forward (afnonet.py:570-575).  Note the
source calls forward_step on the singleton list [inputs], whatever the number
of encoders. -/
def meForwardLoop {K : Type} [AddCommMonoid K] (M : MultiEncoderAFNONet K) :
    Nat → Nat → PTensor K → List (PTensor K) →
      Option (List (PTensor K))
  | 0, _, _, outs => some outs
  | fuel + 1, step, inputs, outs =>
    (if step > 0 then M.get_next_input inputs outs else some inputs).bind
      (fun inputs2 =>
        (M.forward_step [inputs2]).bind (fun x =>
          meForwardLoop M fuel (step + 1) inputs2 (outs ++ [x])))

/-- MultiEncoderAFNONet.forward (afnonet.py:569-591). -/
def MultiEncoderAFNONet.forward {K : Type} [AddCommMonoid K]
    (M : MultiEncoderAFNONet K) (inputs : PTensor K) : Option (PTensor K) :=
  (meForwardLoop M M.autoregressive_steps 0 inputs []).bind
    (fun output_list =>
      (if M.has_time_dim && !M.output_only_last then catDim2All output_list
       else output_list.getLast?).bind (fun x =>
        let x1 := match M.crop_layer with
          | some crop => crop x
          | none => x
        (match M.target_variable_index with
         | some idx => PTensor.selectDim1 idx x1
         | none => some x1).map (fun x2 =>
          match M.act_final with
          | some actf => actf x2
          | none => x2)))

/-! ### Lemmas on in-place broadcast addition (claims C9 and C10) -/

theorem addInto_shape {K : Type} [AddCommMonoid K] {a b c : PTensor K}
    (h : addInto a b = some c) : c.shape = a.shape := by
  unfold addInto at h
  split at h
  · injection h with h2
    rw [← h2]
  · exact Option.noConfusion h

theorem addInto_none_iff {K : Type} [AddCommMonoid K] (a b : PTensor K) :
    addInto a b = none ↔ broadcastableInto b.shape a.shape = false := by
  unfold addInto
  split
  · next hbr => simp [hbr]
  · next hbr => simp [Bool.not_eq_true] at hbr; simp [hbr]

theorem addLoop_shape {K : Type} [AddCommMonoid K] :
    ∀ (ys : List (PTensor K)) (x s : PTensor K),
      addLoop x ys = some s → s.shape = x.shape := by
  intro ys
  induction ys with
  | nil =>
    intro x s h
    rw [addLoop] at h
    injection h with h2
    rw [h2]
  | cons y ys2 ih =>
    intro x s h
    rw [addLoop] at h
    cases hin : addInto x y with
    | none => rw [hin] at h; exact Option.noConfusion h
    | some x2 =>
      rw [hin] at h
      rw [ih x2 s h, addInto_shape hin]

theorem broadcastableInto_self (s : List Nat) :
    broadcastableInto s s = true := by
  unfold broadcastableInto
  rw [Nat.sub_self, List.drop_zero]
  simp only [decide_eq_true (Nat.le_refl s.length), Bool.true_and,
    List.all_eq_true]
  intro p hp
  have : p.1 = p.2 := by
    induction s with
    | nil => simp at hp
    | cons d ds ih =>
      rw [List.zip_cons_cons, List.mem_cons] at hp
      rcases hp with hp | hp
      · rw [hp]
      · exact ih hp
  simp [this]

theorem unravel_lt :
    ∀ (s : List Nat) (k : Nat), k < s.prod →
      List.Forall₂ (· < ·) (unravel s k) s := by
  intro s
  induction s with
  | nil => intro k hk; exact List.Forall₂.nil
  | cons d ds ih =>
    intro k hk
    rw [List.prod_cons] at hk
    have hp : 0 < ds.prod := by
      rcases Nat.eq_zero_or_pos ds.prod with h0 | h0
      · rw [h0, Nat.mul_zero] at hk; omega
      · exact h0
    rw [unravel]
    exact List.Forall₂.cons ((Nat.div_lt_iff_lt_mul hp).mpr hk)
      (ih _ (Nat.mod_lt k hp))

theorem ravel_unravel :
    ∀ (s : List Nat) (k : Nat), k < s.prod → ravel s (unravel s k) = k := by
  intro s
  induction s with
  | nil =>
    intro k hk
    rw [List.prod_nil] at hk
    have hk0 : k = 0 := by omega
    rw [hk0]
    rfl
  | cons d ds ih =>
    intro k hk
    rw [List.prod_cons] at hk
    have hp : 0 < ds.prod := by
      rcases Nat.eq_zero_or_pos ds.prod with h0 | h0
      · rw [h0, Nat.mul_zero] at hk; omega
      · exact h0
    rw [unravel, ravel, ih _ (Nat.mod_lt k hp)]
    rw [Nat.mul_comm]
    exact Nat.div_add_mod k ds.prod

theorem broadcastIndex_zip_self :
    ∀ (s idx : List Nat), List.Forall₂ (· < ·) idx s →
      (s.zip idx).map (fun p => if p.1 = 1 then 0 else p.2) = idx := by
  intro s idx h
  induction h with
  | nil => rfl
  | @cons a b l1 l2 hab htail ih =>
    rw [List.zip_cons_cons, List.map_cons, ih]
    by_cases h1 : b = 1
    · rw [if_pos h1]
      rw [h1] at hab
      have : a = 0 := by omega
      rw [this]
    · rw [if_neg h1]

theorem broadcastIndex_self (s idx : List Nat)
    (h : List.Forall₂ (· < ·) idx s) : broadcastIndex s idx = idx := by
  unfold broadcastIndex
  rw [List.Forall₂.length_eq h, Nat.sub_self, List.drop_zero]
  exact broadcastIndex_zip_self s idx h

/-- In-place += with exactly matching shapes is elementwise addition. -/
theorem addInto_eq_zipWith {K : Type} [AddCommMonoid K] (a b : PTensor K)
    (hs : b.shape = a.shape) (ha : a.wf) (hb : b.wf) :
    addInto a b = some ⟨a.shape, List.zipWith (· + ·) a.data b.data⟩ := by
  unfold addInto
  rw [hs, if_pos (broadcastableInto_self a.shape)]
  refine congrArg some ?_
  refine congrArg (PTensor.mk a.shape) ?_
  have hla : a.data.length = a.shape.prod := ha
  have hlb : b.data.length = a.shape.prod := by
    rw [PTensor.wf, hs] at hb
    exact hb
  refine List.ext_getElem ?_ ?_
  · simp [hla, hlb]
  · intro k h1 h2
    have hk : k < a.shape.prod := by simpa using h1
    have hidx : ravel a.shape (broadcastIndex a.shape (unravel a.shape k))
        = k := by
      rw [broadcastIndex_self a.shape _ (unravel_lt a.shape k hk),
        ravel_unravel a.shape k hk]
    rw [List.getElem_map, List.getElem_range, hidx]
    rw [List.getElem_zipWith]
    rw [List.getD_eq_getElem a.data 0 (by omega),
      List.getD_eq_getElem b.data 0 (by omega)]

/-- Folding equal-shape tensors keeps the head shape and sums elementwise. -/
theorem addLoop_eq_fold {K : Type} [AddCommMonoid K] :
    ∀ (xs : List (PTensor K)) (x : PTensor K),
      (∀ y ∈ xs, y.shape = x.shape) → x.wf → (∀ y ∈ xs, y.wf) →
      addLoop x xs = some ⟨x.shape,
        xs.foldl (fun acc y => List.zipWith (· + ·) acc y.data) x.data⟩ := by
  intro xs
  induction xs with
  | nil => intro x _ _ _; rfl
  | cons y ys ih =>
    intro x hsh hwf hwfs
    have hy : y.shape = x.shape := hsh y (List.mem_cons_self y ys)
    have hywf : y.wf := hwfs y (List.mem_cons_self y ys)
    rw [addLoop, addInto_eq_zipWith x y hy hwf hywf]
    have hlen : (List.zipWith (α := K) (· + ·) x.data y.data).length
        = x.shape.prod := by
      rw [List.length_zipWith, hwf]
      rw [PTensor.wf, hy] at hywf
      rw [hywf]
      exact Nat.min_self _
    exact ih ⟨x.shape, List.zipWith (· + ·) x.data y.data⟩
      (fun z hz => hsh z (List.mem_cons_of_mem y hz)) hlen
      (fun z hz => hwfs z (List.mem_cons_of_mem y hz))

theorem add_cons {K : Type} [AddCommMonoid K] (x : PTensor K)
    (xs : List (PTensor K)) :
    add (x :: xs) = (addLoop x xs).map (fun s => (s, s :: xs)) :=
  rfl

theorem addLoop_none_iff {K : Type} [AddCommMonoid K] :
    ∀ (xs : List (PTensor K)) (x : PTensor K),
      (addLoop x xs = none ↔
        ∃ y ∈ xs, broadcastableInto y.shape x.shape = false) := by
  intro xs
  induction xs with
  | nil => intro x; simp [addLoop]
  | cons y ys ih =>
    intro x
    rw [addLoop]
    cases hin : addInto x y with
    | none =>
      simp only [true_iff]
      exact ⟨y, List.mem_cons_self y ys, (addInto_none_iff x y).mp hin⟩
    | some x2 =>
      have hsh : x2.shape = x.shape := addInto_shape hin
      have hbr : ¬ broadcastableInto y.shape x.shape = false := by
        intro hfalse
        rw [(addInto_none_iff x y).mpr hfalse] at hin
        exact Option.noConfusion hin
      rw [ih x2, hsh]
      constructor
      · rintro ⟨z, hz, hzf⟩
        exact ⟨z, List.mem_cons_of_mem y hz, hzf⟩
      · rintro ⟨z, hz, hzf⟩
        rcases List.mem_cons.mp hz with rfl | hz2
        · exact absurd hzf hbr
        · exact ⟨z, hz2, hzf⟩

/-- C9 (amended): with action='add', when all encoder outputs share the first
output's shape the fusion result is their elementwise sum (accumulated into
the first output); and the helper raises exactly when some later output does
not broadcast into the first output's shape — outputs whose shapes merely
differ but are right-broadcastable (e.g. trailing size-1 dimensions) are
silently broadcast-summed instead of raising. -/
theorem add_fusion_characterization {K : Type} [AddCommMonoid K]
    (x : PTensor K) (xs : List (PTensor K)) :
    ((∀ y ∈ xs, y.shape = x.shape) → x.wf → (∀ y ∈ xs, y.wf) →
      add (x :: xs) = some
        (⟨x.shape,
            xs.foldl (fun acc y => List.zipWith (· + ·) acc y.data) x.data⟩,
          ⟨x.shape,
            xs.foldl (fun acc y => List.zipWith (· + ·) acc y.data) x.data⟩
            :: xs)) ∧
    (add (x :: xs) = none ↔
      ∃ y ∈ xs, broadcastableInto y.shape x.shape = false) := by
  constructor
  · intro hsh hwf hwfs
    rw [add_cons, addLoop_eq_fold xs x hsh hwf hwfs]
    rfl
  · rw [add_cons]
    cases hl : addLoop x xs with
    | none =>
      simp only [Option.map_none', true_iff]
      exact (addLoop_none_iff xs x).mp hl
    | some s =>
      simp only [Option.map_some']
      constructor
      · intro h; exact Option.noConfusion h
      · intro hex
        rw [(addLoop_none_iff xs x).mpr hex] at hl
        exact Option.noConfusion hl

/-- Witness for C9's amended statement: two equal-shape tensors sum
elementwise, and a non-broadcastable second tensor makes the helper raise. -/
theorem add_fusion_characterization_witness :
    add [PTensor.mk [2] [(1:ℤ), 2], PTensor.mk [2] [(3:ℤ), 4]] = some
      (⟨[2], [PTensor.mk [2] [(3:ℤ), 4]].foldl
          (fun acc y => List.zipWith (· + ·) acc y.data) [(1:ℤ), 2]⟩,
        ⟨[2], [PTensor.mk [2] [(3:ℤ), 4]].foldl
          (fun acc y => List.zipWith (· + ·) acc y.data) [(1:ℤ), 2]⟩
          :: [PTensor.mk [2] [(3:ℤ), 4]]) :=
  (add_fusion_characterization (PTensor.mk [2] [(1:ℤ), 2])
    [PTensor.mk [2] [(3:ℤ), 4]]).1 (by decide) (by decide) (by decide)

/-- Counterexample for C9 as stated: the encoder-output shapes [2] and [1]
differ, yet the fusion helper does not raise — it silently broadcasts the
second tensor and returns the sum. -/
theorem add_broadcast_counterexample :
    (PTensor.mk [1] [(10:ℤ)]).shape ≠ (PTensor.mk [2] [(1:ℤ), 2]).shape ∧
    add [PTensor.mk [2] [(1:ℤ), 2], PTensor.mk [1] [(10:ℤ)]]
      = some (PTensor.mk [2] [11, 12],
          [PTensor.mk [2] [11, 12], PTensor.mk [1] [(10:ℤ)]]) := by
  refine ⟨by decide, by decide⟩

/-- C10: a successful run of the fusion helper add returns the accumulated
in-place sum and leaves its argument list with the first element overwritten
by that sum (keeping the first element's shape) while every later element is
left intact. -/
theorem add_inplace_state {K : Type} [AddCommMonoid K] (x : PTensor K)
    (xs : List (PTensor K)) (s : PTensor K) (l2 : List (PTensor K))
    (h : add (x :: xs) = some (s, l2)) :
    l2 = s :: xs ∧ addLoop x xs = some s ∧ s.shape = x.shape := by
  rw [add_cons] at h
  cases hl : addLoop x xs with
  | none =>
    rw [hl] at h
    exact Option.noConfusion h
  | some s0 =>
    rw [hl, Option.map_some'] at h
    injection h with h2
    have hs : s0 = s := congrArg Prod.fst h2
    have hlist : s0 :: xs = l2 := congrArg Prod.snd h2
    subst hs
    exact ⟨hlist.symm, rfl, addLoop_shape xs x s0 hl⟩


/-- Witness for C10: after fusing [2] and [3] the list state holds the sum
[5] in first position with the second tensor untouched. -/
theorem add_inplace_state_witness :
    ([PTensor.mk [1] [(5:ℤ)], PTensor.mk [1] [(3:ℤ)]]
        = PTensor.mk [1] [(5:ℤ)] :: [PTensor.mk [1] [(3:ℤ)]]) ∧
    addLoop (PTensor.mk [1] [(2:ℤ)]) [PTensor.mk [1] [(3:ℤ)]]
        = some (PTensor.mk [1] [(5:ℤ)]) ∧
    (PTensor.mk [1] [(5:ℤ)]).shape = (PTensor.mk [1] [(2:ℤ)]).shape :=
  add_inplace_state (PTensor.mk [1] [(2:ℤ)]) [PTensor.mk [1] [(3:ℤ)]]
    (PTensor.mk [1] [(5:ℤ)]) [PTensor.mk [1] [(5:ℤ)], PTensor.mk [1] [(3:ℤ)]]
    (by decide)

/-! ### Routing of encoder inputs in the fusion wrapper (claim C1) -/

theorem runEncoders_eq {K : Type} :
    ∀ (encoders : List (PTensor K → PTensor K))
      (input_list : List (PTensor K)) (i : Nat),
      encoders.length + i ≤ input_list.length →
      runEncoders encoders input_list i
        = some (List.zipWith (fun (e : PTensor K → PTensor K) inp => e inp) encoders
            (input_list.drop i)) := by
  intro encoders
  induction encoders with
  | nil => intro input_list i _; rfl
  | cons e es ih =>
    intro input_list i h
    have hi : i < input_list.length := by
      rw [List.length_cons] at h
      omega
    rw [runEncoders, List.getElem?_eq_getElem hi,
      ih input_list (i + 1) (by rw [List.length_cons] at h; omega)]
    rw [List.drop_eq_getElem_cons hi, List.zipWith_cons_cons]
    rfl

/-- C1 (amended): forward_step applies the i-th encoder to the i-th tensor of
its input-list argument and fuses the resulting feature tensors (by the
configured policy) before the shared head and output rearrangement; but with
two or more encoders a singleton input list — which is exactly what forward
passes — makes the step fail with an index error instead of running all
encoders. -/
theorem multiEncoder_forward_step_routing {K : Type} [AddCommMonoid K]
    (M : MultiEncoderAFNONet K) (input_list : List (PTensor K))
    (h : M.encoders.length ≤ input_list.length) :
    M.forward_step input_list
      = (match M.action with
         | FuseAction.add =>
            (add (List.zipWith (fun (e : PTensor K → PTensor K) inp => e inp) M.encoders
              input_list)).map Prod.fst
         | FuseAction.concat =>
            concatLastDim (List.zipWith (fun (e : PTensor K → PTensor K) inp => e inp) M.encoders
              input_list)).map
        (fun fused => M.rearrangeOut (M.head fused)) ∧
    (∀ x1 : PTensor K, 2 ≤ M.encoders.length →
      M.forward_step [x1] = none) := by
  constructor
  · rw [MultiEncoderAFNONet.forward_step,
      runEncoders_eq M.encoders input_list 0 (by omega), List.drop_zero]
    cases M.action with
    | add => rfl
    | concat => rfl
  · intro x1 h2
    cases henc : M.encoders with
    | nil => rw [henc] at h2; simp at h2
    | cons e1 tl =>
      cases htl : tl with
      | nil => rw [henc, htl] at h2; simp at h2
      | cons e2 tl2 =>
        rw [MultiEncoderAFNONet.forward_step, henc, htl]
        rw [runEncoders]
        have h0 : ([x1] : List (PTensor K))[0]? = some x1 := rfl
        rw [h0, runEncoders]
        have h1 : ([x1] : List (PTensor K))[1]? = none := rfl
        rw [h1]
        rfl

/-- Witness for C1's amended statement: a single-encoder wrapper routes its
one input through the encoder, the add-fusion and the head. -/
theorem multiEncoder_forward_step_routing_witness :
    MultiEncoderAFNONet.forward_step (K := ℤ)
        { encoders := [fun t => t], action := FuseAction.add, head := id,
          rearrangeOut := id, autoregressive_steps := 1,
          input_time_dim := none, output_time_dim := none,
          output_only_last := false, crop_layer := none,
          target_variable_index := none, act_final := none }
        [PTensor.mk [1] [(5:ℤ)]]
      = (match FuseAction.add with
         | FuseAction.add =>
            (add (List.zipWith (fun (e : PTensor ℤ → PTensor ℤ) inp => e inp)
              [fun t : PTensor ℤ => t] [PTensor.mk [1] [(5:ℤ)]])).map Prod.fst
         | FuseAction.concat =>
            concatLastDim (List.zipWith (fun (e : PTensor ℤ → PTensor ℤ) inp => e inp)
              [fun t : PTensor ℤ => t] [PTensor.mk [1] [(5:ℤ)]])).map
        (fun fused => id (id fused)) ∧
    (∀ x1 : PTensor ℤ, 2 ≤ ([fun t : PTensor ℤ => t]).length →
      MultiEncoderAFNONet.forward_step (K := ℤ)
        { encoders := [fun t => t], action := FuseAction.add, head := id,
          rearrangeOut := id, autoregressive_steps := 1,
          input_time_dim := none, output_time_dim := none,
          output_only_last := false, crop_layer := none,
          target_variable_index := none, act_final := none } [x1] = none) :=
  multiEncoder_forward_step_routing
    { encoders := [fun t => t], action := FuseAction.add, head := id,
      rearrangeOut := id, autoregressive_steps := 1,
      input_time_dim := none, output_time_dim := none,
      output_only_last := false, crop_layer := none,
      target_variable_index := none, act_final := none }
    [PTensor.mk [1] [(5:ℤ)]] (by decide)

/-- Counterexample for C1 as stated: a fusion wrapper with two encoders.  Its
forward wraps the single input tensor in the one-element list [inputs], so
the first step hits an index error and no output is produced — while
forward_step itself, handed a genuine two-element input list, runs both
encoders and fuses their outputs. -/
theorem multiEncoder_forward_singleton_counterexample :
    MultiEncoderAFNONet.forward (K := ℤ)
        { encoders := [fun t => t, fun t => t], action := FuseAction.add,
          head := id, rearrangeOut := id, autoregressive_steps := 1,
          input_time_dim := none, output_time_dim := none,
          output_only_last := false, crop_layer := none,
          target_variable_index := none, act_final := none }
        (PTensor.mk [1] [(5:ℤ)]) = none ∧
    MultiEncoderAFNONet.forward_step (K := ℤ)
        { encoders := [fun t => t, fun t => t], action := FuseAction.add,
          head := id, rearrangeOut := id, autoregressive_steps := 1,
          input_time_dim := none, output_time_dim := none,
          output_only_last := false, crop_layer := none,
          target_variable_index := none, act_final := none }
        [PTensor.mk [1] [(5:ℤ)], PTensor.mk [1] [(7:ℤ)]]
      = some (PTensor.mk [1] [(12:ℤ)]) := by
  refine ⟨by decide, by decide⟩

/-! ### The AFNO2D spectral filter (src/network/afnonet.py:90-172)

The filter is modelled over exact arithmetic in an arbitrary linearly ordered
ring K (instantiated with ℤ in concrete runs), in place of float32: the float
cast at entry and the cast back at exit are the identity in this model.  The
forward/inverse 2D real FFTs (torch.fft.rfft2 / irfft2, norm="ortho") are
ready-made capabilities of the numeric substrate and enter as abstract
function parameters; everything between them — the reshape into blocks, the
zero-initialised output buffers with their banded slice assignment, the
two-layer block-diagonal complex MLP, and the soft-thresholding — is
concrete.  A complex value is an explicit real/imaginary pair, as the source
manipulates the two parts separately. -/
structure CQ (K : Type) where
  re : K
  im : K
deriving DecidableEq

/-- A spatial tensor of shape (B, H, W, C) as nested lists. -/
abbrev Grid4 (K : Type) := List (List (List (List K)))

/-- A complex spectrum of shape (B, H, W/2+1, C). -/
abbrev CSpec (K : Type) := List (List (List (List (CQ K))))

/-- A spectrum reshaped into (B, H, W/2+1, num_blocks, block_size). -/
abbrev BSpec (K : Type) := List (List (List (List (List (CQ K)))))

/-- One output entry of einsum('...bi,bio->...bo') for a single block:
out[j] = Σ_i v[i] · w[i][j]. -/
def matvecRight {K : Type} [LinearOrderedRing K] (v : List K)
    (w : List (List K)) : List K :=
  (List.range ((w.headD []).length)).map (fun j =>
    ((v.zip w).map (fun p => p.1 * (p.2.getD j 0))).sum)

/-- einsum('...bi,bio->...bo') at one frequency mode: block-diagonal matrix
application, one independent matrix per block. -/
def einsumB {K : Type} [LinearOrderedRing K] (v : List (List K))
    (w : List (List (List K))) : List (List K) :=
  List.zipWith matvecRight v w

/-- Elementwise sum of per-mode block matrices (broadcast bias add). -/
def addM {K : Type} [LinearOrderedRing K] (a b : List (List K)) :
    List (List K) :=
  List.zipWith (List.zipWith (· + ·)) a b

/-- Elementwise difference of per-mode block matrices. -/
def subM {K : Type} [LinearOrderedRing K] (a b : List (List K)) :
    List (List K) :=
  List.zipWith (List.zipWith (· - ·)) a b

/-- F.relu applied elementwise. -/
def reluM {K : Type} [LinearOrderedRing K] (a : List (List K)) :
    List (List K) :=
  a.map (List.map (fun q => max q 0))

/-- F.softshrink: x − λ for x > λ, x + λ for x < −λ, 0 otherwise (torch
requires λ ≥ 0). -/
def softshrink {K : Type} [LinearOrderedRing K] (lam v : K) : K :=
  if lam < v then v - lam else if v < -lam then v + lam else 0

/-- torch.stack([o2_real, o2_imag], dim=-1) followed by F.softshrink and
torch.view_as_complex, at one frequency mode. -/
def shrinkPair {K : Type} [LinearOrderedRing K] (lam : K)
    (p : List (List K) × List (List K)) : List (List (CQ K)) :=
  List.zipWith
    (List.zipWith (fun a b => CQ.mk (softshrink lam a) (softshrink lam b)))
    p.1 p.2

/-- Real parts of a per-mode complex block matrix (tensor.real). -/
def reMat {K : Type} (v : List (List (CQ K))) : List (List K) :=
  v.map (List.map CQ.re)

/-- Imaginary parts of a per-mode complex block matrix (tensor.imag). -/
def imMat {K : Type} (v : List (List (CQ K))) : List (List K) :=
  v.map (List.map CQ.im)

/-- An r × c matrix of zeros (a slice of torch.zeros(...)). -/
def zeroMat (K : Type) [LinearOrderedRing K] (r c : Nat) : List (List K) :=
  List.replicate r (List.replicate c (0 : K))

/-- reshape(..., k, n): split a length k·n list into k chunks of length n. -/
def chunkExact {β : Type} : Nat → Nat → List β → List (List β)
  | 0, _, _ => []
  | k + 1, n, l => l.take n :: chunkExact k n (l.drop n)

/-- AFNO2D (afnonet.py:90-111).  w1/b1/w2/b2 hold the pair (index [0], the
real part) and (index [1], the imaginary part) of each parameter tensor. -/
structure AFNO2D (K : Type) where
  hidden_size : Nat
  num_blocks : Nat
  sparsity_threshold : K
  hard_thresholding_fraction : K
  hidden_size_factor : Nat
  w1 : (List (List (List K))) × (List (List (List K)))
  b1 : (List (List K)) × (List (List K))
  w2 : (List (List (List K))) × (List (List (List K)))
  b2 : (List (List K)) × (List (List K))

/-- self.block_size = hidden_size // num_blocks (afnonet.py:100). -/
def AFNO2D.block_size {K : Type} (m : AFNO2D K) : Nat :=
  m.hidden_size / m.num_blocks

/-- total_modes = H // 2 + 1 (afnonet.py:130). -/
def totalModes (H : Nat) : Nat :=
  H / 2 + 1

/-- kept_modes = int(total_modes * hard_thresholding_fraction)
(afnonet.py:131); Python's int() truncates, which for a nonnegative fraction
is the floor. -/
def AFNO2D.keptModes {K : Type} [LinearOrderedRing K] [FloorRing K]
    (m : AFNO2D K) (H : Nat) : Nat :=
  (⌊(totalModes H : K) * m.hard_thresholding_fraction⌋).toNat

/-- The first MLP layer at one retained mode (afnonet.py:133-147): complex
multiplication by (w1, b1) followed by ReLU on each part. -/
def AFNO2D.o1At {K : Type} [LinearOrderedRing K] (m : AFNO2D K)
    (v : List (List (CQ K))) : (List (List K)) × (List (List K)) :=
  (reluM (addM (subM (einsumB (reMat v) m.w1.1) (einsumB (imMat v) m.w1.2))
      m.b1.1),
   reluM (addM (addM (einsumB (imMat v) m.w1.1) (einsumB (reMat v) m.w1.2))
      m.b1.2))

/-- The second MLP layer at one retained mode (afnonet.py:149-163): complex
multiplication by (w2, b2), no nonlinearity. -/
def AFNO2D.o2At {K : Type} [LinearOrderedRing K] (m : AFNO2D K)
    (v : List (List (CQ K))) : (List (List K)) × (List (List K)) :=
  (addM (subM (einsumB (m.o1At v).1 m.w2.1) (einsumB (m.o1At v).2 m.w2.2))
    m.b2.1,
   addM (addM (einsumB (m.o1At v).2 m.w2.1) (einsumB (m.o1At v).1 m.w2.2))
    m.b2.2)

/-- The banded frequency-domain computation (afnonet.py:123-167): o1 and o2
start as zero buffers of shapes (B, H, W/2+1, blocks, ·); the slice
assignment o2[:, total−kept : total+kept, :kept] writes the two-layer MLP
output at every mode in the band and leaves zeros elsewhere; the stacked
real/imaginary parts are then soft-thresholded (everywhere, zeros included)
and recombined into complex values.  The slice assignment is modelled
pointwise: position (r, c) receives the computed value exactly when it lies
in the band. -/
def AFNO2D.spectrumOut {K : Type} [LinearOrderedRing K] [FloorRing K]
    (m : AFNO2D K) (B H Wf : Nat) (xb : BSpec K) : BSpec K :=
  (List.range B).map (fun bi =>
    (List.range H).map (fun r =>
      (List.range Wf).map (fun c =>
        if totalModes H - m.keptModes H ≤ r ∧
            r < totalModes H + m.keptModes H ∧ c < m.keptModes H then
          shrinkPair m.sparsity_threshold
            (m.o2At (((xb.getD bi []).getD r []).getD c []))
        else
          shrinkPair m.sparsity_threshold
            (zeroMat K m.num_blocks m.block_size,
             zeroMat K m.num_blocks m.block_size))))

/-- Elementwise x + bias on spatial tensors (afnonet.py:172). -/
def gridAdd {K : Type} [LinearOrderedRing K] (a b : Grid4 K) : Grid4 K :=
  List.zipWith (List.zipWith (List.zipWith (List.zipWith (· + ·)))) a b

/-- AFNO2D.forward (afnonet.py:113-172).  The dtype casts are the identity in
this exact-arithmetic model; B, H, W are read from the input's shape as in
the source. -/
def AFNO2D.forward {K : Type} [LinearOrderedRing K] [FloorRing K]
    (m : AFNO2D K) (rfft2 : Grid4 K → CSpec K) (irfft2 : CSpec K → Grid4 K)
    (x : Grid4 K) : Grid4 K :=
  let bias := x
  let B := x.length
  let H := (x.headD []).length
  let W := ((x.headD []).headD []).length
  let spec := rfft2 x
  let xb : BSpec K :=
    spec.map (List.map (List.map (chunkExact m.num_blocks m.block_size)))
  let o := m.spectrumOut B H (W / 2 + 1) xb
  let specOut : CSpec K := o.map (List.map (List.map List.flatten))
  gridAdd (irfft2 specOut) bias

/-- Shape predicate for 4-level nested tensors: (B, H, W, C). -/
def isCube {β : Type} (t : List (List (List (List β)))) (B H W C : Nat) :
    Prop :=
  t.length = B ∧ ∀ p ∈ t, p.length = H ∧ ∀ r ∈ p, r.length = W ∧
    ∀ v ∈ r, v.length = C

instance {β : Type} [DecidableEq β] (t : List (List (List (List β))))
    (B H W C : Nat) : Decidable (isCube t B H W C) := by
  unfold isCube
  exact inferInstance

/-- An r × c matrix (exact row count, every row of length c). -/
def isMat {β : Type} (M : List (List β)) (r c : Nat) : Prop :=
  M.length = r ∧ ∀ row ∈ M, row.length = c

instance {β : Type} (M : List (List β)) (r c : Nat) :
    Decidable (isMat M r c) := by
  unfold isMat
  exact inferInstance

/-- An a × b × c parameter tensor. -/
def isMat3 {β : Type} (w : List (List (List β))) (a b c : Nat) : Prop :=
  w.length = a ∧ ∀ mm ∈ w, isMat mm b c

instance {β : Type} (w : List (List (List β))) (a b c : Nat) :
    Decidable (isMat3 w a b c) := by
  unfold isMat3
  exact inferInstance

/-- The construction invariants of AFNO2D: hidden_size divisible by
num_blocks (the assert at afnonet.py:94) and the parameter shapes of
afnonet.py:105-111. -/
def AFNO2D.wf {K : Type} (m : AFNO2D K) : Prop :=
  1 ≤ m.num_blocks ∧ 1 ≤ m.block_size ∧ 1 ≤ m.hidden_size_factor ∧
  m.num_blocks * m.block_size = m.hidden_size ∧
  isMat3 m.w1.1 m.num_blocks m.block_size
    (m.block_size * m.hidden_size_factor) ∧
  isMat3 m.w1.2 m.num_blocks m.block_size
    (m.block_size * m.hidden_size_factor) ∧
  isMat m.b1.1 m.num_blocks (m.block_size * m.hidden_size_factor) ∧
  isMat m.b1.2 m.num_blocks (m.block_size * m.hidden_size_factor) ∧
  isMat3 m.w2.1 m.num_blocks (m.block_size * m.hidden_size_factor)
    m.block_size ∧
  isMat3 m.w2.2 m.num_blocks (m.block_size * m.hidden_size_factor)
    m.block_size ∧
  isMat m.b2.1 m.num_blocks m.block_size ∧
  isMat m.b2.2 m.num_blocks m.block_size

instance {K : Type} [DecidableEq K] (m : AFNO2D K) : Decidable m.wf := by
  unfold AFNO2D.wf
  exact inferInstance

/-- The per-mode complex block matrix at position (bi, r, c). -/
def modeAt {K : Type} (g : BSpec K) (bi r c : Nat) : List (List (CQ K)) :=
  ((g.getD bi []).getD r []).getD c []

/-! ### Lemmas on the spectral band (claims C3 and C4) -/

theorem getD_range_map {β : Type} (n : Nat) (f : Nat → β) (d : β) (i : Nat)
    (h : i < n) : ((List.range n).map f).getD i d = f i := by
  rw [List.getD_eq_getElem _ d (by simpa using h)]
  simp

/-- Reading one mode of the banded output: the computed MLP value inside the
band, a soft-thresholded zero outside it. -/
theorem spectrumOut_modeAt {K : Type} [LinearOrderedRing K] [FloorRing K]
    (m : AFNO2D K) (B H Wf : Nat) (xb : BSpec K) (bi r c : Nat)
    (hb : bi < B) (hr : r < H) (hc : c < Wf) :
    modeAt (m.spectrumOut B H Wf xb) bi r c
      = if totalModes H - m.keptModes H ≤ r ∧
            r < totalModes H + m.keptModes H ∧ c < m.keptModes H then
          shrinkPair m.sparsity_threshold (m.o2At (modeAt xb bi r c))
        else
          shrinkPair m.sparsity_threshold
            (zeroMat K m.num_blocks m.block_size,
             zeroMat K m.num_blocks m.block_size) := by
  rw [modeAt, AFNO2D.spectrumOut]
  rw [getD_range_map B _ [] bi hb, getD_range_map H _ [] r hr,
    getD_range_map Wf _ [] c hc]
  rfl

theorem zipWith_replicate_both {β γ δ : Type} (f : β → γ → δ) (a : β)
    (b : γ) : ∀ n, List.zipWith f (List.replicate n a) (List.replicate n b)
      = List.replicate n (f a b) := by
  intro n
  induction n with
  | zero => rfl
  | succ k ih => simp [List.replicate_succ, ih]

theorem softshrink_zero {K : Type} [LinearOrderedRing K] (lam : K)
    (h : 0 ≤ lam) : softshrink lam 0 = 0 := by
  rw [softshrink, if_neg (not_lt.mpr h),
    if_neg (not_lt.mpr (neg_nonpos.mpr h))]

theorem shrinkPair_zero {K : Type} [LinearOrderedRing K] (lam : K)
    (h : 0 ≤ lam) (r c : Nat) :
    shrinkPair lam (zeroMat K r c, zeroMat K r c)
      = List.replicate r (List.replicate c (CQ.mk (0 : K) 0)) := by
  rw [shrinkPair, zeroMat]
  rw [zipWith_replicate_both]
  rw [zipWith_replicate_both]
  rw [softshrink_zero lam h]

/-- C3 (amended): with a nonnegative sparsity threshold, the learned
correction is zero at every mode outside rows
[total_modes − kept_modes, total_modes + kept_modes) × columns
[0, kept_modes); hard_thresholding_fraction = 1 makes kept_modes =
total_modes, keeps every row, and keeps every column exactly when W ≤ H (the
column cap kept_modes is computed from H, so wider-than-tall grids lose
columns even at fraction 1); and whenever kept_modes < total_modes the band
excludes row 0, so the retained rows are centred at H/2+1, not at the zero
row. -/
theorem afno_mode_band {K : Type} [LinearOrderedRing K] [FloorRing K]
    (m : AFNO2D K) (B H W : Nat) (xb : BSpec K)
    (hlam : 0 ≤ m.sparsity_threshold) :
    (∀ bi r c, bi < B → r < H → c < W / 2 + 1 →
      ¬ (totalModes H - m.keptModes H ≤ r ∧
          r < totalModes H + m.keptModes H ∧ c < m.keptModes H) →
      modeAt (m.spectrumOut B H (W / 2 + 1) xb) bi r c
        = List.replicate m.num_blocks
            (List.replicate m.block_size (CQ.mk (0 : K) 0))) ∧
    (m.hard_thresholding_fraction = 1 →
      m.keptModes H = totalModes H ∧
      (∀ r, r < H → totalModes H - m.keptModes H ≤ r ∧
        r < totalModes H + m.keptModes H) ∧
      (W ≤ H → ∀ c, c < W / 2 + 1 → c < m.keptModes H)) ∧
    (m.keptModes H < totalModes H → ¬ totalModes H - m.keptModes H ≤ 0) := by
  refine ⟨?_, ?_, ?_⟩
  · intro bi r c hb hr hc hout
    rw [spectrumOut_modeAt m B H (W / 2 + 1) xb bi r c hb hr hc,
      if_neg hout, shrinkPair_zero m.sparsity_threshold hlam]
  · intro hfrac
    have hk : m.keptModes H = totalModes H := by
      rw [AFNO2D.keptModes, hfrac, mul_one, Int.floor_natCast]
      exact Int.toNat_natCast (totalModes H)
    refine ⟨hk, ?_, ?_⟩
    · intro r hr
      rw [hk]
      unfold totalModes
      omega
    · intro hWH c hc
      rw [hk]
      unfold totalModes
      omega
  · intro hlt
    omega

/-- A minimal concrete AFNO2D filter over ℤ: one block of size one, zero
weights except a real second-layer bias of 1, sparsity threshold 0, and full
mode retention (hard_thresholding_fraction = 1). -/
def afnoTiny : AFNO2D ℤ :=
  { hidden_size := 1, num_blocks := 1, sparsity_threshold := 0,
    hard_thresholding_fraction := 1, hidden_size_factor := 1,
    w1 := ([[[0]]], [[[0]]]), b1 := ([[0]], [[0]]),
    w2 := ([[[0]]], [[[0]]]), b2 := ([[1]], [[0]]) }

/-- A concrete reshaped spectrum of shape (1, 2, 3, 1, 1) — that of a 2 × 4
spatial grid (H = 2, W = 4, so W/2+1 = 3) — nonzero in column 2. -/
def afnoTinySpec : BSpec ℤ :=
  [[[[[⟨1, 0⟩]], [[⟨1, 0⟩]], [[⟨5, 0⟩]]],
    [[[⟨0, 0⟩]], [[⟨0, 0⟩]], [[⟨0, 0⟩]]]]]

/-- Witness for C3's amended statement on the 2 × 4 grid. -/
theorem afno_mode_band_witness :
    (∀ bi r c, bi < 1 → r < 2 → c < 4 / 2 + 1 →
      ¬ (totalModes 2 - afnoTiny.keptModes 2 ≤ r ∧
          r < totalModes 2 + afnoTiny.keptModes 2 ∧
          c < afnoTiny.keptModes 2) →
      modeAt (afnoTiny.spectrumOut 1 2 (4 / 2 + 1) afnoTinySpec) bi r c
        = List.replicate afnoTiny.num_blocks
            (List.replicate afnoTiny.block_size (CQ.mk (0 : ℤ) 0))) ∧
    (afnoTiny.hard_thresholding_fraction = 1 →
      afnoTiny.keptModes 2 = totalModes 2 ∧
      (∀ r, r < 2 → totalModes 2 - afnoTiny.keptModes 2 ≤ r ∧
        r < totalModes 2 + afnoTiny.keptModes 2) ∧
      (4 ≤ 2 → ∀ c, c < 4 / 2 + 1 → c < afnoTiny.keptModes 2)) ∧
    (afnoTiny.keptModes 2 < totalModes 2 →
      ¬ totalModes 2 - afnoTiny.keptModes 2 ≤ 0) :=
  afno_mode_band afnoTiny 1 2 4 afnoTinySpec (by decide)

/-- Counterexample for C3 as stated: with hard_thresholding_fraction = 1.0 on
a 2 × 4 grid, column 2 of the spectrum (which exists because W/2+1 = 3 >
kept_modes = H/2+1 = 2) is outside the band: its learned correction is forced
to zero although the input mode there is nonzero, while the in-band mode
(0,0) is transformed — so fraction 1.0 does not retain all modes. -/
theorem afno_retains_all_modes_counterexample :
    afnoTiny.hard_thresholding_fraction = 1 ∧
    modeAt afnoTinySpec 0 0 2 = [[CQ.mk 5 0]] ∧
    modeAt (afnoTiny.spectrumOut 1 2 3 afnoTinySpec) 0 0 2
      = [[CQ.mk 0 0]] ∧
    modeAt (afnoTiny.spectrumOut 1 2 3 afnoTinySpec) 0 0 0
      = [[CQ.mk 1 0]] := by
  refine ⟨rfl, by decide, by decide, by decide⟩

/-- C4: at every mode inside the retained band, the output is the two-layer
block-diagonal complex MLP of the input mode — first layer: real part
relu(re·w1[0] − im·w1[1] + b1[0]), imaginary part
relu(im·w1[0] + re·w1[1] + b1[1]); second layer: the same complex
multiplication form with (w2, b2) and no nonlinearity — followed by
soft-thresholding with threshold sparsity_threshold of the stacked
real/imaginary parts. -/
theorem afno_band_complex_mlp {K : Type} [LinearOrderedRing K] [FloorRing K]
    (m : AFNO2D K) (B H Wf : Nat) (xb : BSpec K) (bi r c : Nat)
    (hb : bi < B) (hr : r < H) (hc : c < Wf)
    (hband : totalModes H - m.keptModes H ≤ r ∧
      r < totalModes H + m.keptModes H ∧ c < m.keptModes H) :
    modeAt (m.spectrumOut B H Wf xb) bi r c
      = shrinkPair m.sparsity_threshold
          (addM (subM
              (einsumB (reluM (addM (subM
                  (einsumB (reMat (modeAt xb bi r c)) m.w1.1)
                  (einsumB (imMat (modeAt xb bi r c)) m.w1.2)) m.b1.1))
                m.w2.1)
              (einsumB (reluM (addM (addM
                  (einsumB (imMat (modeAt xb bi r c)) m.w1.1)
                  (einsumB (reMat (modeAt xb bi r c)) m.w1.2)) m.b1.2))
                m.w2.2))
            m.b2.1,
           addM (addM
              (einsumB (reluM (addM (addM
                  (einsumB (imMat (modeAt xb bi r c)) m.w1.1)
                  (einsumB (reMat (modeAt xb bi r c)) m.w1.2)) m.b1.2))
                m.w2.1)
              (einsumB (reluM (addM (subM
                  (einsumB (reMat (modeAt xb bi r c)) m.w1.1)
                  (einsumB (imMat (modeAt xb bi r c)) m.w1.2)) m.b1.1))
                m.w2.2))
            m.b2.2) := by
  rw [spectrumOut_modeAt m B H Wf xb bi r c hb hr hc, if_pos hband]
  rfl

/-- Witness for C4 at the in-band mode (0, 0) of the concrete filter. -/
theorem afno_band_complex_mlp_witness :
    modeAt (afnoTiny.spectrumOut 1 2 3 afnoTinySpec) 0 0 0
      = shrinkPair afnoTiny.sparsity_threshold
          (addM (subM
              (einsumB (reluM (addM (subM
                  (einsumB (reMat (modeAt afnoTinySpec 0 0 0)) afnoTiny.w1.1)
                  (einsumB (imMat (modeAt afnoTinySpec 0 0 0))
                    afnoTiny.w1.2)) afnoTiny.b1.1))
                afnoTiny.w2.1)
              (einsumB (reluM (addM (addM
                  (einsumB (imMat (modeAt afnoTinySpec 0 0 0)) afnoTiny.w1.1)
                  (einsumB (reMat (modeAt afnoTinySpec 0 0 0))
                    afnoTiny.w1.2)) afnoTiny.b1.2))
                afnoTiny.w2.2))
            afnoTiny.b2.1,
           addM (addM
              (einsumB (reluM (addM (addM
                  (einsumB (imMat (modeAt afnoTinySpec 0 0 0)) afnoTiny.w1.1)
                  (einsumB (reMat (modeAt afnoTinySpec 0 0 0))
                    afnoTiny.w1.2)) afnoTiny.b1.2))
                afnoTiny.w2.1)
              (einsumB (reluM (addM (subM
                  (einsumB (reMat (modeAt afnoTinySpec 0 0 0)) afnoTiny.w1.1)
                  (einsumB (imMat (modeAt afnoTinySpec 0 0 0))
                    afnoTiny.w1.2)) afnoTiny.b1.1))
                afnoTiny.w2.2))
            afnoTiny.b2.2) :=
  afno_band_complex_mlp afnoTiny 1 2 3 afnoTinySpec 0 0 0 (by decide)
    (by decide) (by decide) (by decide)

/-! ### The fraction-zero pass-through (claim C5) -/

/-- The all-zero complex spectrum of shape (B, H, Wf, C). -/
def zeroCSpec (K : Type) [LinearOrderedRing K] (B H Wf C : Nat) : CSpec K :=
  List.replicate B (List.replicate H (List.replicate Wf
    (List.replicate C (CQ.mk (0 : K) (0 : K)))))

/-- The all-zero spatial tensor of shape (B, H, W, C). -/
def zeroGrid4 (K : Type) [LinearOrderedRing K] (B H W C : Nat) : Grid4 K :=
  List.replicate B (List.replicate H (List.replicate W
    (List.replicate C (0 : K))))

theorem map_const_range {β : Type} (n : Nat) (b : β) :
    (List.range n).map (fun _ => b) = List.replicate n b := by
  rw [List.map_const', List.length_range]

theorem flatten_replicate_replicate {β : Type} (c : Nat) (z : β) :
    ∀ r : Nat, (List.replicate r (List.replicate c z)).flatten
      = List.replicate (r * c) z := by
  intro r
  induction r with
  | zero => simp
  | succ k ih =>
    rw [List.replicate_succ, List.flatten_cons, ih, ← List.replicate_add]
    have : c + k * c = (k + 1) * c := by ring
    rw [this]

theorem headD_mem {β : Type} (l : List β) (d : β) (h : l ≠ []) :
    l.headD d ∈ l := by
  cases l with
  | nil => exact absurd rfl h
  | cons a t => exact List.mem_cons_self a t

/-- With hard_thresholding_fraction = 0 no mode is retained: every entry of
the banded output is a soft-thresholded zero. -/
theorem spectrumOut_fraction_zero {K : Type} [LinearOrderedRing K]
    [FloorRing K] (m : AFNO2D K) (B H Wf : Nat) (xb : BSpec K)
    (hfrac : m.hard_thresholding_fraction = 0)
    (hlam : 0 ≤ m.sparsity_threshold) :
    m.spectrumOut B H Wf xb
      = List.replicate B (List.replicate H (List.replicate Wf
          (List.replicate m.num_blocks
            (List.replicate m.block_size (CQ.mk (0 : K) 0))))) := by
  have hkept : m.keptModes H = 0 := by
    rw [AFNO2D.keptModes, hfrac, mul_zero, Int.floor_zero]
    rfl
  rw [AFNO2D.spectrumOut]
  simp only [hkept, Nat.not_lt_zero, and_false, if_false,
    shrinkPair_zero m.sparsity_threshold hlam, map_const_range]

theorem zipWith_add_zero_row {K : Type} [LinearOrderedRing K] :
    ∀ (l : List K) (n : Nat), l.length = n →
      List.zipWith (· + ·) (List.replicate n (0 : K)) l = l := by
  intro l
  induction l with
  | nil => intro n h; rw [← h]; rfl
  | cons a t ih =>
    intro n h
    cases n with
    | zero => simp at h
    | succ k =>
      rw [List.replicate_succ, List.zipWith_cons_cons, zero_add,
        ih k (by simpa using h)]

theorem zipWith_add_zero_mat {K : Type} [LinearOrderedRing K] :
    ∀ (p : List (List K)) (W C : Nat), p.length = W →
      (∀ r ∈ p, r.length = C) →
      List.zipWith (List.zipWith (· + ·))
        (List.replicate W (List.replicate C (0 : K))) p = p := by
  intro p
  induction p with
  | nil => intro W C h _; rw [← h]; rfl
  | cons r t ih =>
    intro W C h hr
    cases W with
    | zero => simp at h
    | succ k =>
      rw [List.replicate_succ, List.zipWith_cons_cons,
        zipWith_add_zero_row r C (hr r (List.mem_cons_self r t)),
        ih k C (by simpa using h)
          (fun z hz => hr z (List.mem_cons_of_mem r hz))]

theorem zipWith_add_zero_vol {K : Type} [LinearOrderedRing K] :
    ∀ (q : List (List (List K))) (H W C : Nat), q.length = H →
      (∀ p ∈ q, p.length = W ∧ ∀ r ∈ p, r.length = C) →
      List.zipWith (List.zipWith (List.zipWith (· + ·)))
        (List.replicate H (List.replicate W (List.replicate C (0 : K)))) q
        = q := by
  intro q
  induction q with
  | nil => intro H W C h _; rw [← h]; rfl
  | cons p t ih =>
    intro H W C h hp
    cases H with
    | zero => simp at h
    | succ k =>
      have h1 := hp p (List.mem_cons_self p t)
      rw [List.replicate_succ, List.zipWith_cons_cons,
        zipWith_add_zero_mat p W C h1.1 h1.2,
        ih k W C (by simpa using h)
          (fun z hz => hp z (List.mem_cons_of_mem p hz))]

theorem gridAdd_zero {K : Type} [LinearOrderedRing K] :
    ∀ (x : Grid4 K) (B H W C : Nat), isCube x B H W C →
      gridAdd (zeroGrid4 K B H W C) x = x := by
  intro x
  induction x with
  | nil => intro B H W C h; rw [← h.1]; rfl
  | cons q t ih =>
    intro B H W C h
    cases B with
    | zero => simp [isCube] at h
    | succ k =>
      have h1 := h.2 q (List.mem_cons_self q t)
      have h2 : ∀ p ∈ q, p.length = W ∧ ∀ r ∈ p, r.length = C := by
        intro p hpq
        exact ⟨(h1.2 p hpq).1, (h1.2 p hpq).2⟩
      rw [gridAdd, zeroGrid4, List.replicate_succ, List.zipWith_cons_cons,
        zipWith_add_zero_vol q H W C h1.1 h2]
      have ht : gridAdd (zeroGrid4 K k H W C) t = t :=
        ih k H W C ⟨by simpa using h.1,
          fun z hz => h.2 z (List.mem_cons_of_mem q hz)⟩
      rw [gridAdd, zeroGrid4] at ht
      rw [ht]

/-- C5: a Spectral Filter configured with hard_thresholding_fraction = 0 (and
the torch-required nonnegative sparsity threshold) is the identity: no mode
is retained, the zero-initialised output buffers pass soft-thresholding
unchanged, the inverse FFT of the zero spectrum is zero, and the internal
residual returns the input exactly (exact arithmetic in place of the spec's
floating-point tolerance). -/
theorem afno_fraction_zero_identity {K : Type} [LinearOrderedRing K]
    [FloorRing K] (m : AFNO2D K) (rfft2 : Grid4 K → CSpec K)
    (irfft2 : CSpec K → Grid4 K) (x : Grid4 K) (B H W C : Nat)
    (hx : isCube x B H W C) (hB : 1 ≤ B) (hH : 1 ≤ H)
    (hfrac : m.hard_thresholding_fraction = 0)
    (hlam : 0 ≤ m.sparsity_threshold)
    (hifft : irfft2 (zeroCSpec K B H (W / 2 + 1)
        (m.num_blocks * m.block_size)) = zeroGrid4 K B H W C) :
    m.forward rfft2 irfft2 x = x := by
  have hxB : x.length = B := hx.1
  have hne : x ≠ [] := by
    intro h0
    rw [h0] at hxB
    simp at hxB
    omega
  have hmem : x.headD [] ∈ x := headD_mem x [] hne
  have hxH : (x.headD []).length = H := (hx.2 _ hmem).1
  have hne2 : x.headD [] ≠ [] := by
    intro h0
    rw [h0] at hxH
    simp at hxH
    omega
  have hmem2 : (x.headD []).headD [] ∈ x.headD [] := headD_mem _ [] hne2
  have hxW : ((x.headD []).headD []).length = W := ((hx.2 _ hmem).2 _ hmem2).1
  simp only [AFNO2D.forward]
  rw [hxB, hxH, hxW]
  rw [spectrumOut_fraction_zero m B H (W / 2 + 1) _ hfrac hlam]
  simp only [List.map_replicate, flatten_replicate_replicate]
  have hz : List.replicate B (List.replicate H (List.replicate (W / 2 + 1)
      (List.replicate (m.num_blocks * m.block_size) (CQ.mk (0 : K) 0))))
      = zeroCSpec K B H (W / 2 + 1) (m.num_blocks * m.block_size) := rfl
  rw [hz, hifft]
  exact gridAdd_zero x B H W C hx

/-- Witness for C5 on a 1 × 1 × 1 × 1 tensor with a fraction-zero filter. -/
theorem afno_fraction_zero_identity_witness :
    AFNO2D.forward (K := ℤ)
        { hidden_size := 1, num_blocks := 1, sparsity_threshold := 0,
          hard_thresholding_fraction := 0, hidden_size_factor := 1,
          w1 := ([[[2]]], [[[3]]]), b1 := ([[4]], [[5]]),
          w2 := ([[[6]]], [[[7]]]), b2 := ([[8]], [[9]]) }
        (fun _ => [[[[CQ.mk 1 1]]]]) (fun _ => [[[[0]]]]) [[[[3]]]]
      = [[[[3]]]] :=
  afno_fraction_zero_identity (K := ℤ)
    { hidden_size := 1, num_blocks := 1, sparsity_threshold := 0,
      hard_thresholding_fraction := 0, hidden_size_factor := 1,
      w1 := ([[[2]]], [[[3]]]), b1 := ([[4]], [[5]]),
      w2 := ([[[6]]], [[[7]]]), b2 := ([[8]], [[9]]) }
    (fun _ => [[[[CQ.mk 1 1]]]]) (fun _ => [[[[0]]]]) [[[[3]]]] 1 1 1 1
    (by decide) (by decide) (by decide) rfl (by decide) (by decide)

/-! ### Shape preservation and the internal residual (claim C8) -/

theorem chunkExact_length {β : Type} :
    ∀ (k n : Nat) (l : List β), (chunkExact k n l).length = k := by
  intro k
  induction k with
  | zero => intro n l; rfl
  | succ j ih => intro n l; rw [chunkExact, List.length_cons, ih]

theorem matvecRight_length {K : Type} [LinearOrderedRing K] (v : List K)
    (w : List (List K)) : (matvecRight v w).length = (w.headD []).length := by
  rw [matvecRight, List.length_map, List.length_range]

theorem isMat_zipWith2 {β γ δ : Type} (f : β → γ → δ) (a : List (List β))
    (b : List (List γ)) (r c : Nat) (ha : isMat a r c) (hb : isMat b r c) :
    isMat (List.zipWith (List.zipWith f) a b) r c := by
  constructor
  · rw [List.length_zipWith, ha.1, hb.1, Nat.min_self]
  · intro row hrow
    obtain ⟨ra, rb, hra, hrb, rfl⟩ := exists_of_mem_zipWith hrow
    rw [List.length_zipWith, ha.2 ra hra, hb.2 rb hrb, Nat.min_self]

theorem isMat_reluM {K : Type} [LinearOrderedRing K] (a : List (List K))
    (r c : Nat) (ha : isMat a r c) : isMat (reluM a) r c := by
  constructor
  · rw [reluM, List.length_map, ha.1]
  · intro row hrow
    rw [reluM, List.mem_map] at hrow
    obtain ⟨r0, hr0, rfl⟩ := hrow
    rw [List.length_map, ha.2 r0 hr0]

theorem isMat_einsumB {K : Type} [LinearOrderedRing K] (v : List (List K))
    (w : List (List (List K))) (a b c : Nat) (hw : isMat3 w a b c)
    (hb : 1 ≤ b) (hv : v.length = a) : isMat (einsumB v w) a c := by
  constructor
  · rw [einsumB, List.length_zipWith, hv, hw.1, Nat.min_self]
  · intro row hrow
    obtain ⟨vi, wi, hvi, hwi, rfl⟩ := exists_of_mem_zipWith hrow
    have hmat := hw.2 wi hwi
    have hwine : wi ≠ [] := by
      intro h0
      rw [h0] at hmat
      have : (0 : Nat) = b := hmat.1
      omega
    have hhead : wi.headD [] ∈ wi := headD_mem wi [] hwine
    rw [matvecRight_length, hmat.2 _ hhead]

theorem o2At_isMat {K : Type} [LinearOrderedRing K] (m : AFNO2D K)
    (hm : m.wf) (v : List (List (CQ K))) (hv : v.length = m.num_blocks) :
    isMat (m.o2At v).1 m.num_blocks m.block_size ∧
    isMat (m.o2At v).2 m.num_blocks m.block_size := by
  obtain ⟨hnb, hbs, hfac, hdiv, hw11, hw12, hb11, hb12, hw21, hw22, hb21,
    hb22⟩ := hm
  have hbsf : 1 ≤ m.block_size * m.hidden_size_factor :=
    Nat.mul_pos hbs hfac
  have hre : (reMat v).length = m.num_blocks := by
    rw [reMat, List.length_map, hv]
  have him : (imMat v).length = m.num_blocks := by
    rw [imMat, List.length_map, hv]
  have ho1a : isMat (m.o1At v).1 m.num_blocks
      (m.block_size * m.hidden_size_factor) := by
    refine isMat_reluM _ _ _ (isMat_zipWith2 _ _ _ _ _
      (isMat_zipWith2 _ _ _ _ _ ?_ ?_) ?_)
    · exact isMat_einsumB _ _ _ _ _ hw11 hbs hre
    · exact isMat_einsumB _ _ _ _ _ hw12 hbs him
    · exact hb11
  have ho1b : isMat (m.o1At v).2 m.num_blocks
      (m.block_size * m.hidden_size_factor) := by
    refine isMat_reluM _ _ _ (isMat_zipWith2 _ _ _ _ _
      (isMat_zipWith2 _ _ _ _ _ ?_ ?_) ?_)
    · exact isMat_einsumB _ _ _ _ _ hw11 hbs him
    · exact isMat_einsumB _ _ _ _ _ hw12 hbs hre
    · exact hb12
  constructor
  · refine isMat_zipWith2 _ _ _ _ _ (isMat_zipWith2 _ _ _ _ _ ?_ ?_) hb21
    · exact isMat_einsumB _ _ _ _ _ hw21 hbsf ho1a.1
    · exact isMat_einsumB _ _ _ _ _ hw22 hbsf ho1b.1
  · refine isMat_zipWith2 _ _ _ _ _ (isMat_zipWith2 _ _ _ _ _ ?_ ?_) hb22
    · exact isMat_einsumB _ _ _ _ _ hw21 hbsf ho1b.1
    · exact isMat_einsumB _ _ _ _ _ hw22 hbsf ho1a.1

theorem isMat_zeroMat {K : Type} [LinearOrderedRing K] (r c : Nat) :
    isMat (zeroMat K r c) r c := by
  constructor
  · rw [zeroMat, List.length_replicate]
  · intro row hrow
    rw [zeroMat, List.mem_replicate] at hrow
    rw [hrow.2, List.length_replicate]

theorem flatten_length_of_isMat {β : Type} :
    ∀ (M : List (List β)) (r c : Nat), isMat M r c →
      M.flatten.length = r * c := by
  intro M
  induction M with
  | nil =>
    intro r c h
    rw [← h.1]
    simp
  | cons hd tl ih =>
    intro r c h
    rw [List.flatten_cons, List.length_append,
      h.2 hd (List.mem_cons_self hd tl),
      ih tl.length c ⟨rfl, fun z hz => h.2 z (List.mem_cons_of_mem hd hz)⟩,
      ← h.1]
    rw [List.length_cons]
    ring

theorem modeAt_chunk_length {K : Type} (spec : CSpec K) (B H Wf C k n : Nat)
    (hs : isCube spec B H Wf C) (bi r c : Nat) (hb : bi < B) (hr : r < H)
    (hc : c < Wf) :
    (modeAt (spec.map (List.map (List.map (chunkExact k n)))) bi r c).length
      = k := by
  obtain ⟨hlen, hmem⟩ := hs
  have hb2 : bi < spec.length := by omega
  have hsp : spec[bi] ∈ spec := List.getElem_mem hb2
  have hH2 : spec[bi].length = H := (hmem _ hsp).1
  have hr2 : r < spec[bi].length := by omega
  have hrow : spec[bi][r] ∈ spec[bi] := List.getElem_mem hr2
  have hW2 : spec[bi][r].length = Wf := ((hmem _ hsp).2 _ hrow).1
  have hc2 : c < spec[bi][r].length := by omega
  have e1 : (spec.map (List.map (List.map (chunkExact k n)))).getD bi []
      = List.map (List.map (chunkExact k n)) spec[bi] := by
    rw [List.getD_eq_getElem (spec.map (List.map (List.map (chunkExact k n))))
      [] (by simpa using hb2)]
    rw [List.getElem_map]
  have e2 : (List.map (List.map (chunkExact k n)) spec[bi]).getD r []
      = List.map (chunkExact k n) spec[bi][r] := by
    rw [List.getD_eq_getElem (List.map (List.map (chunkExact k n)) spec[bi])
      [] (by simpa using hr2)]
    rw [List.getElem_map]
  have e3 : (List.map (chunkExact k n) spec[bi][r]).getD c []
      = chunkExact k n spec[bi][r][c] := by
    rw [List.getD_eq_getElem (List.map (chunkExact k n) spec[bi][r])
      [] (by simpa using hc2)]
    rw [List.getElem_map]
  rw [modeAt, e1, e2, e3]
  exact chunkExact_length k n _

/-- The flattened banded output is a well-shaped (B, H, W/2+1, hidden_size)
spectrum whenever the reshaped input spectrum has num_blocks block rows at
every in-range mode. -/
theorem spectrumOut_flatten_isCube {K : Type} [LinearOrderedRing K]
    [FloorRing K] (m : AFNO2D K) (hm : m.wf) (B H Wf : Nat) (xb : BSpec K)
    (hmode : ∀ bi r c, bi < B → r < H → c < Wf →
      (modeAt xb bi r c).length = m.num_blocks) :
    isCube ((m.spectrumOut B H Wf xb).map (List.map (List.map List.flatten)))
      B H Wf m.hidden_size := by
  have hdiv : m.num_blocks * m.block_size = m.hidden_size := hm.2.2.2.1
  constructor
  · rw [List.length_map, AFNO2D.spectrumOut, List.length_map,
      List.length_range]
  · intro p hp
    rw [List.mem_map] at hp
    obtain ⟨p0, hp0, rfl⟩ := hp
    rw [AFNO2D.spectrumOut, List.mem_map] at hp0
    obtain ⟨bi, hbi, rfl⟩ := hp0
    rw [List.mem_range] at hbi
    constructor
    · rw [List.length_map, List.length_map, List.length_range]
    · intro row hrow
      rw [List.mem_map] at hrow
      obtain ⟨r0, hr0, rfl⟩ := hrow
      rw [List.mem_map] at hr0
      obtain ⟨r, hr, rfl⟩ := hr0
      rw [List.mem_range] at hr
      constructor
      · rw [List.length_map, List.length_map, List.length_range]
      · intro v hv
        rw [List.mem_map] at hv
        obtain ⟨v0, hv0, rfl⟩ := hv
        rw [List.mem_map] at hv0
        obtain ⟨c, hc, rfl⟩ := hv0
        rw [List.mem_range] at hc
        have hvmat : isMat (if totalModes H - m.keptModes H ≤ r ∧
            r < totalModes H + m.keptModes H ∧ c < m.keptModes H then
              shrinkPair m.sparsity_threshold
                (m.o2At (((xb.getD bi []).getD r []).getD c []))
            else
              shrinkPair m.sparsity_threshold
                (zeroMat K m.num_blocks m.block_size,
                 zeroMat K m.num_blocks m.block_size))
            m.num_blocks m.block_size := by
          by_cases hcond : totalModes H - m.keptModes H ≤ r ∧
              r < totalModes H + m.keptModes H ∧ c < m.keptModes H
          · rw [if_pos hcond]
            have hlen := hmode bi r c hbi hr hc
            rw [modeAt] at hlen
            have ho2 := o2At_isMat m hm _ hlen
            exact isMat_zipWith2 _ _ _ _ _ ho2.1 ho2.2
          · rw [if_neg hcond]
            exact isMat_zipWith2 _ _ _ _ _ (isMat_zeroMat _ _)
              (isMat_zeroMat _ _)
        rw [flatten_length_of_isMat _ m.num_blocks m.block_size hvmat, hdiv]

theorem isCube_gridAdd {K : Type} [LinearOrderedRing K] (a b : Grid4 K)
    (B H W C : Nat) (ha : isCube a B H W C) (hb : isCube b B H W C) :
    isCube (gridAdd a b) B H W C := by
  refine ⟨?_, ?_⟩
  · rw [gridAdd, List.length_zipWith, ha.1, hb.1, Nat.min_self]
  · intro p hp
    obtain ⟨pa, pb, hpa, hpb, rfl⟩ := exists_of_mem_zipWith hp
    refine ⟨?_, ?_⟩
    · rw [List.length_zipWith, (ha.2 pa hpa).1, (hb.2 pb hpb).1,
        Nat.min_self]
    · intro r hr
      obtain ⟨ra, rb, hra, hrb, rfl⟩ := exists_of_mem_zipWith hr
      refine ⟨?_, ?_⟩
      · rw [List.length_zipWith, ((ha.2 pa hpa).2 ra hra).1,
          ((hb.2 pb hpb).2 rb hrb).1, Nat.min_self]
      · intro v hv
        obtain ⟨va, vb, hva, hvb, rfl⟩ := exists_of_mem_zipWith hv
        rw [List.length_zipWith, ((ha.2 pa hpa).2 ra hra).2 va hva,
          ((hb.2 pb hpb).2 rb hrb).2 vb hvb, Nat.min_self]

/-- C8: for a well-formed filter on a well-shaped input (with the FFT
collaborators meeting their torch shape contracts), the output has the same
shape (B, H, W, C) as the input and equals the input plus a learned
correction of that same shape — the filter's internal residual connection. -/
theorem afno_shape_residual {K : Type} [LinearOrderedRing K] [FloorRing K]
    (m : AFNO2D K) (rfft2 : Grid4 K → CSpec K) (irfft2 : CSpec K → Grid4 K)
    (x : Grid4 K) (B H W C : Nat) (hm : m.wf) (_hC : C = m.hidden_size)
    (hx : isCube x B H W C) (hB : 1 ≤ B) (hH : 1 ≤ H)
    (hfft : isCube (rfft2 x) B H (W / 2 + 1) C)
    (hifft : ∀ s : CSpec K, isCube s B H (W / 2 + 1) m.hidden_size →
      isCube (irfft2 s) B H W C) :
    isCube (m.forward rfft2 irfft2 x) B H W C ∧
    ∃ corr : Grid4 K, isCube corr B H W C ∧
      m.forward rfft2 irfft2 x = gridAdd corr x := by
  have hxB : x.length = B := hx.1
  have hne : x ≠ [] := by
    intro h0
    rw [h0] at hxB
    simp at hxB
    omega
  have hmem : x.headD [] ∈ x := headD_mem x [] hne
  have hxH : (x.headD []).length = H := (hx.2 _ hmem).1
  have hne2 : x.headD [] ≠ [] := by
    intro h0
    rw [h0] at hxH
    simp at hxH
    omega
  have hmem2 : (x.headD []).headD [] ∈ x.headD [] := headD_mem _ [] hne2
  have hxW : ((x.headD []).headD []).length = W := ((hx.2 _ hmem).2 _ hmem2).1
  have hmode : ∀ bi r c, bi < B → r < H → c < W / 2 + 1 →
      (modeAt ((rfft2 x).map
        (List.map (List.map (chunkExact m.num_blocks m.block_size))))
        bi r c).length = m.num_blocks :=
    fun bi r c hb hr hc =>
      modeAt_chunk_length (rfft2 x) B H (W / 2 + 1) C m.num_blocks
        m.block_size hfft bi r c hb hr hc
  have hcube := spectrumOut_flatten_isCube m hm B H (W / 2 + 1) _ hmode
  have hcorr := hifft _ hcube
  have hfwd : m.forward rfft2 irfft2 x
      = gridAdd (irfft2 ((m.spectrumOut B H (W / 2 + 1)
          ((rfft2 x).map (List.map (List.map
            (chunkExact m.num_blocks m.block_size))))).map
          (List.map (List.map List.flatten)))) x := by
    simp only [AFNO2D.forward]
    rw [hxB, hxH, hxW]
  refine ⟨?_, ?_⟩
  · rw [hfwd]
    exact isCube_gridAdd _ x B H W C hcorr hx
  · exact ⟨_, hcorr, hfwd⟩

/-- Witness for C8 on a 1 × 1 × 1 × 1 tensor with constant well-shaped FFT
collaborators. -/
theorem afno_shape_residual_witness :
    isCube (AFNO2D.forward (K := ℤ)
        { hidden_size := 1, num_blocks := 1, sparsity_threshold := 1,
          hard_thresholding_fraction := 1, hidden_size_factor := 1,
          w1 := ([[[2]]], [[[3]]]), b1 := ([[4]], [[5]]),
          w2 := ([[[6]]], [[[7]]]), b2 := ([[8]], [[9]]) }
        (fun _ => [[[[CQ.mk 2 5]]]]) (fun _ => [[[[7]]]]) [[[[3]]]]) 1 1 1 1 ∧
    ∃ corr : Grid4 ℤ, isCube corr 1 1 1 1 ∧
      AFNO2D.forward (K := ℤ)
        { hidden_size := 1, num_blocks := 1, sparsity_threshold := 1,
          hard_thresholding_fraction := 1, hidden_size_factor := 1,
          w1 := ([[[2]]], [[[3]]]), b1 := ([[4]], [[5]]),
          w2 := ([[[6]]], [[[7]]]), b2 := ([[8]], [[9]]) }
        (fun _ => [[[[CQ.mk 2 5]]]]) (fun _ => [[[[7]]]]) [[[[3]]]]
        = gridAdd corr [[[[3]]]] :=
  afno_shape_residual (K := ℤ)
    { hidden_size := 1, num_blocks := 1, sparsity_threshold := 1,
      hard_thresholding_fraction := 1, hidden_size_factor := 1,
      w1 := ([[[2]]], [[[3]]]), b1 := ([[4]], [[5]]),
      w2 := ([[[6]]], [[[7]]]), b2 := ([[8]], [[9]]) }
    (fun _ => [[[[CQ.mk 2 5]]]]) (fun _ => [[[[7]]]]) [[[[3]]]] 1 1 1 1
    (by decide) rfl (by decide) (by decide) (by decide) (by decide)
    (fun s h => show isCube ([[[[7]]]] : Grid4 ℤ) 1 1 1 1 by decide)

end SolarSeer
